import Mathlib

/-!
Verification development for the `slam` screen-layout solver
(`src/ext/screen_layout.h`, `src/ext/screen_layout.cpp`).

The C++ core enumerates sequence-pair layout templates, lowers each
template to an integer linear program over an ISL polyhedron, extracts the
lexicographically minimal integer point, and keeps the best solution under
an objective/tie-break order.  We embed the data model and the driver
directly; the two external library calls (`std::next_permutation` and the
ISL `lexmin` + `sample_point` pipeline) are modelled by their documented
semantics: the former as "smallest lexicographically greater permutation,
else reset to sorted", the latter as a solver oracle that is required to
return the lexicographically minimal point of the constraint set.
-/

namespace ScreenLayout

/-- Directions, from `screen_layout.h` (`enum { none, left, right, above, under }`). -/
inductive Dir where
  | none
  | left
  | right
  | above
  | under
deriving DecidableEq

/-- `dir_invert` from `screen_layout.h`. -/
def dir_invert : Dir → Dir
  | Dir.left => Dir.right
  | Dir.right => Dir.left
  | Dir.above => Dir.under
  | Dir.under => Dir.above
  | Dir.none => Dir.none

/-- `struct pair { int x; int y; }` from `screen_layout.h`.  Coordinates are
embedded as unbounded integers (ISL computes with exact integers). -/
structure Pair where
  x : Int
  y : Int
deriving DecidableEq

/-- `pair::operator<` from `screen_layout.h`:
`x < other.x || (x == other.x && y < other.y)`. -/
def Pair.lt (p q : Pair) : Bool :=
  p.x < q.x || (p.x == q.x && p.y < q.y)

/-- Strict lexicographic comparison of integer lists, the order in which
`std::next_permutation` steps through permutations. -/
def lexLt : List Nat → List Nat → Bool
  | [], [] => false
  | [], _ :: _ => true
  | _ :: _, [] => false
  | x :: xs, y :: ys => x < y || (x == y && lexLt xs ys)

/-- Non-strict companion of `lexLt`. -/
def lexLe (p q : List Nat) : Bool := !(lexLt q p)

/-- `lexLe` as a relation, for use with the sorting library. -/
def lexLeRel (p q : List Nat) : Prop := lexLe p q = true

instance : DecidableRel lexLeRel := fun p q => by unfold lexLeRel; infer_instance

/-- Model of the external `std::next_permutation` by its C++ standard
semantics: transform the range into the lexicographically next greater
permutation and return `true`; if none exists, transform it into the first
(ascending-sorted) permutation and return `false`. -/
def next_permutation (l : List Nat) : Bool × List Nat :=
  match (l.permutations'.insertionSort lexLeRel).filter (fun p => lexLt l p) with
  | [] => (false, l.insertionSort (fun x y => x ≤ y))
  | p :: _ => (true, p)

/-- `sequence_pair` state from `screen_layout.cpp`: two int vectors `a`, `b`. -/
structure SeqPair where
  a : List Nat
  b : List Nat
deriving DecidableEq

/-- The `sequence_pair(int size)` constructor: both permutations start at the
identity `[0, 1, ..., size-1]`. -/
def initSP (n : Nat) : SeqPair := ⟨List.range n, List.range n⟩

/-- `sequence_pair::next`:
`std::next_permutation(a) || std::next_permutation(b)` with in-place
mutation (short-circuit: `b` is advanced only when `a` wrapped around). -/
def SeqPair.next (sp : SeqPair) : Bool × SeqPair :=
  let ra := next_permutation sp.a
  if ra.1 then (true, ⟨ra.2, sp.b⟩)
  else
    let rb := next_permutation sp.b
    (rb.1, ⟨ra.2, rb.2⟩)

/-- `sequence_pair::ordering(sa, sb)` from `screen_layout.cpp` lines 24-28. -/
def SeqPair.ordering (sp : SeqPair) (sa sb : Nat) : Dir :=
  let left_diff : Int := (sp.a.getD sb 0 : Int) - (sp.a.getD sa 0 : Int)
  let right_diff : Int := (sp.b.getD sb 0 : Int) - (sp.b.getD sa 0 : Int)
  if left_diff > 0 then (if right_diff > 0 then Dir.left else Dir.above)
  else (if right_diff > 0 then Dir.under else Dir.right)

/-- A well-formed sequence-pair state for `n` screens: both vectors are
permutations of `0..n-1`, as established by the constructor and preserved by
`std::next_permutation`. -/
def IsSeqPairOf (n : Nat) (sp : SeqPair) : Prop :=
  sp.a.Perm (List.range n) ∧ sp.b.Perm (List.range n)

/-- The list of sequence-pair states visited by the driver's do-while loop:
the current state, then, while `next` reports `true`, its successors.  The
fuel argument bounds the unrolling; the driver instantiates it with
`(n!)^2`, which the enumeration theorem shows is exactly enough. -/
def templateList : Nat → SeqPair → List SeqPair
  | 0, sp => [sp]
  | fuel + 1, sp =>
      sp :: (let r := SeqPair.next sp
             if r.1 then templateList fuel r.2 else [])

/-- All templates examined by `compute_screen_layout` for `n` screens, in
visit order. -/
def driverTemplates (n : Nat) : List SeqPair :=
  templateList (n.factorial * n.factorial) (initSP n)

/-!
### Rectangle packer

Variable indexing from `rectangle_packer` (`screen_layout.cpp` lines
120-136).  The axis enum is `X = 1, Y = 0`, so coordinate `0` is the
objective, `1` the virtual-screen height, `2` the virtual-screen width,
then all `n` Y positions, then all `n` X positions, then one auxiliary
distance variable per unordered screen pair.
-/

/-- `v_objective()`. -/
def v_objective : Nat := 0

/-- `v_vscreen_size(a)` with axis `a` (`X = 1`, `Y = 0`). -/
def v_vscreen_size (a : Nat) : Nat := v_objective + 1 + a

/-- `v_screen_pos(sc, a)`: `v_vscreen_size(Next) + a * nb_screen + sc`. -/
def v_screen_pos (n sc a : Nat) : Nat := v_vscreen_size 2 + a * n + sc

/-- `v_max_var(cnstr)`: `v_screen_pos(0, Next) + cnstr`. -/
def v_max_var (n cnstr : Nat) : Nat := v_screen_pos n 0 2 + cnstr

/-- `max_var_nb()` = `n (n-1) / 2`. -/
def max_var_nb (n : Nat) : Nat := n * (n - 1) / 2

/-- `v_nb()`: total number of solver variables. -/
def v_nb (n : Nat) : Nat := v_max_var n (max_var_nb n)

/-- Allocation index of the auxiliary distance variable of pair `(sa, sb)`
with `sb < sa`: the constructor's objective loop visits pairs in the order
`(1,0), (2,0), (2,1), (3,0), ...` and increments `next_max_var` once per
pair, so pair `(sa, sb)` receives index `sa (sa-1)/2 + sb`. -/
def pairIdx (sa sb : Nat) : Nat := sa * (sa - 1) / 2 + sb

/-- The ordered pairs `(sa, sb)` with `sb < sa < n`, in the iteration order
of the nested constructor loops. -/
def pairList (n : Nat) : List (Nat × Nat) :=
  (List.range n).flatMap (fun sa => (List.range sa).map (fun sb => (sa, sb)))

/-- The two inequalities added by `rectangle_packer::distance_var`
(lines 199-205): `a - b + (sa_size - sb_size)/2 ≤ mv` and
`b - a + (sb_size - sa_size)/2 ≤ mv`, with C++ truncating division. -/
def distPair (p : Nat → Int) (dv ua : Nat) (sa_size : Int) (vb : Nat) (sb_size : Int) : Prop :=
  p ua - p vb + Int.tdiv (sa_size - sb_size) 2 ≤ p dv ∧
  p vb - p ua + Int.tdiv (sb_size - sa_size) 2 ≤ p dv

/-- The screen-ordering constraint added for pair `(sa, sb)` (lines 53-61).
The `none` case models the `throw` (no solution set is ever built). -/
def orderingConstraint (n : Nat) (sizes : List Pair) (sp : SeqPair) (p : Nat → Int) (sa sb : Nat) : Prop :=
  match sp.ordering sa sb with
  | Dir.left => p (v_screen_pos n sa 1) + (sizes.getD sa ⟨0, 0⟩).x ≤ p (v_screen_pos n sb 1)
  | Dir.right => p (v_screen_pos n sb 1) + (sizes.getD sb ⟨0, 0⟩).x ≤ p (v_screen_pos n sa 1)
  | Dir.above => p (v_screen_pos n sa 0) + (sizes.getD sa ⟨0, 0⟩).y ≤ p (v_screen_pos n sb 0)
  | Dir.under => p (v_screen_pos n sb 0) + (sizes.getD sb ⟨0, 0⟩).y ≤ p (v_screen_pos n sa 0)
  | Dir.none => False

/-- The pair of distance-variable inequalities added for pair `(sa, sb)` by
the objective loop (lines 73-94): the cross axis of the induced direction,
with the argument order of each `distance_var` call.  The `none` case adds
nothing (`default: break`). -/
def distConstraint (n : Nat) (sizes : List Pair) (sp : SeqPair) (p : Nat → Int) (sa sb : Nat) : Prop :=
  match sp.ordering sa sb with
  | Dir.left =>
      distPair p (v_max_var n (pairIdx sa sb))
        (v_screen_pos n sa 0) (sizes.getD sa ⟨0, 0⟩).y (v_screen_pos n sb 0) (sizes.getD sb ⟨0, 0⟩).y
  | Dir.right =>
      distPair p (v_max_var n (pairIdx sa sb))
        (v_screen_pos n sb 0) (sizes.getD sb ⟨0, 0⟩).y (v_screen_pos n sa 0) (sizes.getD sa ⟨0, 0⟩).y
  | Dir.above =>
      distPair p (v_max_var n (pairIdx sa sb))
        (v_screen_pos n sa 1) (sizes.getD sa ⟨0, 0⟩).x (v_screen_pos n sb 1) (sizes.getD sb ⟨0, 0⟩).x
  | Dir.under =>
      distPair p (v_max_var n (pairIdx sa sb))
        (v_screen_pos n sb 1) (sizes.getD sb ⟨0, 0⟩).x (v_screen_pos n sa 1) (sizes.getD sa ⟨0, 0⟩).x
  | Dir.none => True

/-- The constraint-gap contribution of pair `(sa, sb)` to the objective
(lines 76-91, gap coefficient 1). -/
def gapTerm (n : Nat) (sp : SeqPair) (p : Nat → Int) (sa sb : Nat) : Int :=
  match sp.ordering sa sb with
  | Dir.left => p (v_screen_pos n sb 1) - p (v_screen_pos n sa 1)
  | Dir.right => p (v_screen_pos n sa 1) - p (v_screen_pos n sb 1)
  | Dir.above => p (v_screen_pos n sb 0) - p (v_screen_pos n sa 0)
  | Dir.under => p (v_screen_pos n sa 0) - p (v_screen_pos n sb 0)
  | Dir.none => 0

/-- The distance-variable contribution of pair `(sa, sb)` to the objective
(center-distance coefficient 1; nothing in the unreachable `none` case). -/
def distTerm (n : Nat) (sp : SeqPair) (p : Nat → Int) (sa sb : Nat) : Int :=
  match sp.ordering sa sb with
  | Dir.none => 0
  | _ => p (v_max_var n (pairIdx sa sb))

/-- The linear expression bound to the objective variable by the final
`equality(coeffs)` call (line 95): `o = Σ gaps + Σ distance variables`. -/
def objectiveSum (n : Nat) (sp : SeqPair) (p : Nat → Int) : Int :=
  ((pairList n).map (fun q => gapTerm n sp p q.1 q.2 + distTerm n sp p q.1 q.2)).sum

/-- Membership in the ISL solution set built by the `rectangle_packer`
constructor: virtual-screen bounds, containment of every screen, the
template's ordering constraints, the distance-variable constraints, and the
objective-binding equality. -/
def Feasible (n : Nat) (vmin vmax : Pair) (sizes : List Pair) (sp : SeqPair) (p : Nat → Int) : Prop :=
  (vmin.x ≤ p (v_vscreen_size 1) ∧ p (v_vscreen_size 1) ≤ vmax.x) ∧
  (vmin.y ≤ p (v_vscreen_size 0) ∧ p (v_vscreen_size 0) ≤ vmax.y) ∧
  (∀ sc < n,
    (0 ≤ p (v_screen_pos n sc 1) ∧
      p (v_screen_pos n sc 1) + (sizes.getD sc ⟨0, 0⟩).x ≤ p (v_vscreen_size 1)) ∧
    (0 ≤ p (v_screen_pos n sc 0) ∧
      p (v_screen_pos n sc 0) + (sizes.getD sc ⟨0, 0⟩).y ≤ p (v_vscreen_size 0))) ∧
  (∀ sa < n, ∀ sb < sa, orderingConstraint n sizes sp p sa sb) ∧
  (∀ sa < n, ∀ sb < sa, distConstraint n sizes sp p sa sb) ∧
  p v_objective = objectiveSum n sp p

instance (n : Nat) (sizes : List Pair) (sp : SeqPair) (p : Nat → Int) (sa sb : Nat) :
    Decidable (orderingConstraint n sizes sp p sa sb) := by
  unfold orderingConstraint
  cases h : sp.ordering sa sb <;> exact inferInstance

instance (n : Nat) (sizes : List Pair) (sp : SeqPair) (p : Nat → Int) (sa sb : Nat) :
    Decidable (distConstraint n sizes sp p sa sb) := by
  unfold distConstraint distPair
  cases h : sp.ordering sa sb <;> exact inferInstance

instance (n : Nat) (vmin vmax : Pair) (sizes : List Pair) (sp : SeqPair) (p : Nat → Int) :
    Decidable (Feasible n vmin vmax sizes sp p) := by
  unfold Feasible
  exact inferInstance

/-- Pointwise lexicographic comparison on the first `k` solver coordinates:
at every index whose strict prefix agrees, `p` is at most `q`.  This is
equivalent to `p` being lexicographically no greater than `q`. -/
def PtLexLe (k : Nat) (p q : Nat → Int) : Prop :=
  ∀ i < k, (∀ j < i, p j = q j) → p i ≤ q i

/-- The specification of `isl_set_lexmin` + `isl_set_sample_point` as used
by `rectangle_packer::solve`: a feasible point lexicographically minimal
among all feasible points. -/
def IsLexmin (k : Nat) (P : (Nat → Int) → Prop) (p : Nat → Int) : Prop :=
  P p ∧ ∀ q, P q → PtLexLe k p q

/-!
### Driver
-/

/-- `std::numeric_limits<long>::max()`, the driver's sentinel objective. -/
def init : Int := 2 ^ 63 - 1

/-- The driver's running state: the recorded objective and the two output
parameters.  The `winner` field is specification instrumentation recording
which template produced the last recorded solution; the C++ code keeps only
the values. -/
structure DriverState where
  last_objective : Int
  vscreen_size : Pair
  screen_positions : List Pair
  winner : Option SeqPair

/-- The user-constraint filter of `compute_screen_layout` (lines 225-228):
every entry `M[sa][sb]` with `sb < sa` is `none` or matches the template's
induced direction. -/
def compatibleB (n : Nat) (M : List (List Dir)) (sp : SeqPair) : Bool :=
  (List.range n).all (fun sa => (List.range sa).all (fun sb =>
    ((M.getD sa []).getD sb Dir.none == Dir.none) ||
    ((M.getD sa []).getD sb Dir.none == sp.ordering sa sb)))

/-- `rectangle_packer::virtual_screen()`: the pair `(W, H)` read from the
solution point. -/
def solutionVSize (p : Nat → Int) : Pair :=
  ⟨p (v_vscreen_size 1), p (v_vscreen_size 0)⟩

/-- `rectangle_packer::screen_positions()`. -/
def solutionPositions (n : Nat) (p : Nat → Int) : List Pair :=
  (List.range n).map (fun sc => ⟨p (v_screen_pos n sc 1), p (v_screen_pos n sc 0)⟩)

/-- One iteration of the driver's do-while body (lines 223-244), with the
external ISL solve represented by the oracle `S`. -/
def driverStep (n : Nat) (M : List (List Dir)) (S : SeqPair → Option (Nat → Int))
    (st : DriverState) (sp : SeqPair) : DriverState :=
  if compatibleB n M sp then
    match S sp with
    | Option.none => st
    | Option.some p =>
        let objective := p v_objective
        let virtual_screen_size := solutionVSize p
        if decide (objective < st.last_objective) ||
            (objective == st.last_objective && Pair.lt virtual_screen_size st.vscreen_size) then
          ⟨objective, virtual_screen_size, solutionPositions n p, Option.some sp⟩
        else st
  else st

/-- `compute_screen_layout` (lines 216-247): fold the driver step over all
enumerated templates, starting from the caller-supplied values of the two
output parameters, and report success iff the sentinel was beaten.  The
result tuple is `(return value, vscreen_size, screen_positions, winner)`. -/
def compute_screen_layout (vmin vmax : Pair) (sizes : List Pair) (M : List (List Dir))
    (S : SeqPair → Option (Nat → Int)) (vscreen_size0 : Pair) (screen_positions0 : List Pair) :
    Bool × Pair × List Pair × Option SeqPair :=
  let n := sizes.length
  let final := (driverTemplates n).foldl (driverStep n M S)
    ⟨init, vscreen_size0, screen_positions0, Option.none⟩
  (final.last_objective != init, final.vscreen_size, final.screen_positions, final.winner)

/-- Validity of a solver oracle on a given problem: on every enumerated
template that passes the user-constraint filter, it returns the
lexicographically minimal point of the packer's solution set, or `none`
exactly when that set is empty. -/
def SolverOK (n : Nat) (vmin vmax : Pair) (sizes : List Pair) (M : List (List Dir))
    (S : SeqPair → Option (Nat → Int)) : Prop :=
  ∀ sp ∈ driverTemplates n, compatibleB n M sp = true →
    match S sp with
    | Option.none => ∀ p, ¬ Feasible n vmin vmax sizes sp p
    | Option.some p => IsLexmin (v_nb n) (Feasible n vmin vmax sizes sp) p

/-- The §6 input constraints: at least one screen, positive sizes,
`0 ≤ vmin ≤ vmax` componentwise, and a square constraint matrix symmetric
under `dir_invert` with `none` diagonal. -/
def Preconds (vmin vmax : Pair) (sizes : List Pair) (M : List (List Dir)) : Prop :=
  1 ≤ sizes.length ∧
  (∀ s ∈ sizes, 0 < s.x ∧ 0 < s.y) ∧
  (0 ≤ vmin.x ∧ vmin.x ≤ vmax.x) ∧
  (0 ≤ vmin.y ∧ vmin.y ≤ vmax.y) ∧
  M.length = sizes.length ∧
  (∀ row ∈ M, row.length = sizes.length) ∧
  (∀ i < sizes.length, ∀ j < sizes.length,
    (M.getD i []).getD j Dir.none = dir_invert ((M.getD j []).getD i Dir.none)) ∧
  (∀ i < sizes.length, (M.getD i []).getD i Dir.none = Dir.none)

instance (vmin vmax : Pair) (sizes : List Pair) (M : List (List Dir)) :
    Decidable (Preconds vmin vmax sizes M) := by
  unfold Preconds
  exact inferInstance

/-- Membership of an integer point in the half-open rectangle at `pos` of
extent `size`. -/
def InRect (pos size : Pair) (q : Int × Int) : Prop :=
  pos.x ≤ q.1 ∧ q.1 < pos.x + size.x ∧ pos.y ≤ q.2 ∧ q.2 < pos.y + size.y

/-- Disjointness of two half-open rectangles. -/
def RectDisjoint (p1 s1 p2 s2 : Pair) : Prop :=
  ∀ q : Int × Int, ¬ (InRect p1 s1 q ∧ InRect p2 s2 q)

/-- The full constraint matrix induced by a sequence-pair template:
`none` on the diagonal and the induced direction elsewhere. -/
def inducedMatrix (n : Nat) (sp : SeqPair) : List (List Dir) :=
  (List.range n).map (fun sa => (List.range n).map (fun sb =>
    if sa = sb then Dir.none else sp.ordering sa sb))

/-!
### Basic facts: solver variable indices, lexicographic point order
-/

theorem v_nb_eq (n : Nat) : v_nb n = 3 + 2 * n + n * (n - 1) / 2 := by
  simp only [v_nb, v_max_var, v_screen_pos, v_vscreen_size, v_objective, max_var_nb]
  omega

theorem v_objective_lt_v_nb (n : Nat) : v_objective < v_nb n := by
  rw [v_nb_eq]; simp only [v_objective]; omega

theorem v_vscreen_size_lt_v_nb (n a : Nat) (ha : a < 2) : v_vscreen_size a < v_nb n := by
  rw [v_nb_eq]; simp only [v_vscreen_size, v_objective]; omega

theorem v_screen_pos_lt_v_nb (n sc a : Nat) (hsc : sc < n) (ha : a < 2) :
    v_screen_pos n sc a < v_nb n := by
  rw [v_nb_eq]; simp only [v_screen_pos, v_vscreen_size, v_objective]
  have : a * n ≤ 1 * n := Nat.mul_le_mul_right n (by omega)
  omega

/-- Triangular-number step used by the distance-variable indexing. -/
theorem triangle_succ (m : Nat) : (m + 1) * m / 2 = m * (m - 1) / 2 + m := by
  have h : (m + 1) * m = m * (m - 1) + m * 2 := by
    cases m with
    | zero => rfl
    | succ k => simp only [Nat.add_sub_cancel]; ring
  rw [h, Nat.add_mul_div_right _ _ (by norm_num : 0 < 2)]

theorem triangle_mono {m m' : Nat} (h : m ≤ m') : m * (m - 1) / 2 ≤ m' * (m' - 1) / 2 :=
  Nat.div_le_div_right (Nat.mul_le_mul h (by omega))

theorem pairIdx_lt_max_var_nb {n sa sb : Nat} (hsb : sb < sa) (hsa : sa < n) :
    pairIdx sa sb < max_var_nb n := by
  unfold pairIdx max_var_nb
  have h1 : sa * (sa - 1) / 2 + sb < (sa + 1) * sa / 2 := by rw [triangle_succ]; omega
  have h2 : (sa + 1) * sa / 2 ≤ n * (n - 1) / 2 := by
    have := triangle_mono (show sa + 1 ≤ n by omega)
    simpa using this
  omega

theorem pairIdx_inj {sa sb sa' sb' : Nat} (h : sb < sa) (h' : sb' < sa')
    (he : pairIdx sa sb = pairIdx sa' sb') : sa = sa' ∧ sb = sb' := by
  unfold pairIdx at he
  rcases Nat.lt_trichotomy sa sa' with hlt | heq | hgt
  · exfalso
    have h1 : sa * (sa - 1) / 2 + sb < (sa + 1) * sa / 2 := by rw [triangle_succ]; omega
    have h2 : (sa + 1) * sa / 2 ≤ sa' * (sa' - 1) / 2 := by
      have := triangle_mono (show sa + 1 ≤ sa' by omega)
      simpa using this
    omega
  · subst heq; omega
  · exfalso
    have h1 : sa' * (sa' - 1) / 2 + sb' < (sa' + 1) * sa' / 2 := by rw [triangle_succ]; omega
    have h2 : (sa' + 1) * sa' / 2 ≤ sa * (sa - 1) / 2 := by
      have := triangle_mono (show sa' + 1 ≤ sa by omega)
      simpa using this
    omega

theorem v_max_var_lt_v_nb {n sa sb : Nat} (hsb : sb < sa) (hsa : sa < n) :
    v_max_var n (pairIdx sa sb) < v_nb n := by
  have := pairIdx_lt_max_var_nb hsb hsa
  simp only [v_nb, v_max_var]
  omega

theorem v_screen_pos_lt_v_max_var (n sc a c : Nat) (hsc : sc < n) (ha : a < 2) :
    v_screen_pos n sc a < v_max_var n c := by
  simp only [v_screen_pos, v_max_var, v_vscreen_size, v_objective]
  have : a * n ≤ 1 * n := Nat.mul_le_mul_right n (by omega)
  omega

theorem ptLexLe_agree {k : Nat} {p q : Nat → Int} (hpq : PtLexLe k p q) (hqp : PtLexLe k q p) :
    ∀ i, i < k → p i = q i := by
  intro i
  induction i using Nat.strong_induction_on with
  | _ i IH =>
    intro hik
    have hpre : ∀ j, j < i → p j = q j := fun j hj => IH j hj (hj.trans hik)
    exact le_antisymm (hpq i hik hpre) (hqp i hik fun j hj => (hpre j hj).symm)

/-- Two lexicographic minima of the same solution set agree on every solver
coordinate. -/
theorem isLexmin_agree {k : Nat} {P : (Nat → Int) → Prop} {p q : Nat → Int}
    (hp : IsLexmin k P p) (hq : IsLexmin k P q) : ∀ i, i < k → p i = q i :=
  ptLexLe_agree (hp.2 q hq.1) (hq.2 p hp.1)

/-!
### Facts about induced directions
-/

/-- `sequence_pair::ordering` structurally never returns `none`. -/
theorem ordering_ne_none (sp : SeqPair) (sa sb : Nat) : sp.ordering sa sb ≠ Dir.none := by
  unfold SeqPair.ordering
  dsimp only
  split <;> split <;> simp

theorem getD_injective_of_perm_range {l : List Nat} {n i j : Nat} (h : l.Perm (List.range n))
    (hi : i < n) (hj : j < n) (hne : i ≠ j) : l.getD i 0 ≠ l.getD j 0 := by
  have hlen : l.length = n := by simpa using h.length_eq
  have hnd : l.Nodup := h.nodup_iff.mpr (List.nodup_range n)
  rw [l.getD_eq_getElem 0 (by omega), l.getD_eq_getElem 0 (by omega)]
  intro hc
  exact hne (hnd.getElem_inj_iff.mp hc)

/-- Antisymmetry of induced directions: swapping the pair inverts the
direction, provided both components are genuine permutations. -/
theorem ordering_invert {n : Nat} {sp : SeqPair} (h : IsSeqPairOf n sp) {sa sb : Nat}
    (hsa : sa < n) (hsb : sb < n) (hne : sa ≠ sb) :
    sp.ordering sb sa = dir_invert (sp.ordering sa sb) := by
  have ha := getD_injective_of_perm_range h.1 hsb hsa (Ne.symm hne)
  have hb := getD_injective_of_perm_range h.2 hsb hsa (Ne.symm hne)
  unfold SeqPair.ordering dir_invert
  dsimp only
  split_ifs <;> first | rfl | omega

/-!
### Driver fold invariants
-/

/-- Either a driver step leaves the state unchanged, or it records the
oracle's solution for a compatible template. -/
theorem driverStep_cases (n : Nat) (M : List (List Dir)) (S : SeqPair → Option (Nat → Int))
    (st : DriverState) (sp : SeqPair) :
    driverStep n M S st sp = st ∨
    ∃ p, compatibleB n M sp = true ∧ S sp = Option.some p ∧
      driverStep n M S st sp =
        ⟨p v_objective, solutionVSize p, solutionPositions n p, Option.some sp⟩ ∧
      (decide (p v_objective < st.last_objective) ||
        (p v_objective == st.last_objective &&
          Pair.lt (solutionVSize p) st.vscreen_size)) = true := by
  unfold driverStep
  split
  · rename_i hc
    cases hS : S sp with
    | none => left; rfl
    | some p =>
        dsimp only
        split
        · rename_i hrec
          right
          exact ⟨p, hc, rfl, rfl, hrec⟩
        · left; rfl
  · left; rfl

/-- Generic preservation of an invariant along the driver fold. -/
theorem foldl_invariant {α σ : Type} (f : σ → α → σ) (P : σ → Prop) (Q : α → Prop)
    (hstep : ∀ s a, Q a → P s → P (f s a)) :
    ∀ l : List α, (∀ a ∈ l, Q a) → ∀ s, P s → P (l.foldl f s) := by
  intro l
  induction l with
  | nil => intro _ s hs; exact hs
  | cons a l IH =>
      intro hQ s hs
      exact IH (fun x hx => hQ x (List.mem_cons_of_mem a hx))
        (f s a) (hstep s a (hQ a (List.mem_cons_self a l)) hs)

/-- A driver state that beat the sentinel carries data recorded from some
compatible template's lexicographically minimal feasible point. -/
def GoodState (n : Nat) (vmin vmax : Pair) (sizes : List Pair) (M : List (List Dir))
    (st : DriverState) : Prop :=
  st.last_objective ≠ init →
  ∃ sp p, sp ∈ driverTemplates n ∧ compatibleB n M sp = true ∧
    IsLexmin (v_nb n) (Feasible n vmin vmax sizes sp) p ∧
    st.last_objective = p v_objective ∧ st.vscreen_size = solutionVSize p ∧
    st.screen_positions = solutionPositions n p ∧ st.winner = Option.some sp

theorem goodState_step (n : Nat) (vmin vmax : Pair) (sizes : List Pair) (M : List (List Dir))
    (S : SeqPair → Option (Nat → Int)) (hS : SolverOK n vmin vmax sizes M S)
    (st : DriverState) (sp : SeqPair) (hmem : sp ∈ driverTemplates n)
    (hst : GoodState n vmin vmax sizes M st) :
    GoodState n vmin vmax sizes M (driverStep n M S st sp) := by
  rcases driverStep_cases n M S st sp with heq | ⟨p, hc, hSome, heq, _⟩
  · rw [heq]; exact hst
  · rw [heq]
    intro _
    have hlex := hS sp hmem hc
    rw [hSome] at hlex
    exact ⟨sp, p, hmem, hc, hlex, rfl, rfl, rfl, rfl⟩

theorem goodState_final (n : Nat) (vmin vmax : Pair) (sizes : List Pair) (M : List (List Dir))
    (S : SeqPair → Option (Nat → Int)) (hS : SolverOK n vmin vmax sizes M S)
    (vss0 : Pair) (pos0 : List Pair) :
    GoodState n vmin vmax sizes M
      ((driverTemplates n).foldl (driverStep n M S) ⟨init, vss0, pos0, Option.none⟩) := by
  refine foldl_invariant (driverStep n M S) (GoodState n vmin vmax sizes M)
    (fun sp => sp ∈ driverTemplates n)
    (fun st sp hmem hst => goodState_step n vmin vmax sizes M S hS st sp hmem hst)
    (driverTemplates n) (fun a ha => ha) _ ?_
  intro h
  exact absurd rfl h

/-!
### Concrete instances

Small fully-evaluated problem instances used to instantiate the general
theorems: a single-screen layout, the two-screen scenario of the spec, and
an infeasible single-screen problem.
-/

/-- Solution point of the single-screen instance `vmax = (5,5)`,
`sizes = [(2,3)]`: objective `0`, `H = 3`, `W = 2`, `Y0 = X0 = 0`. -/
def pOne : Nat → Int := fun i => [0, 3, 2, 0, 0].getD i 0

theorem pOne_lexmin :
    IsLexmin (v_nb 1) (Feasible 1 ⟨0, 0⟩ ⟨5, 5⟩ [⟨2, 3⟩] (initSP 1)) pOne := by
  constructor
  · decide
  · intro q hq
    obtain ⟨⟨hW1, hW2⟩, ⟨hH1, hH2⟩, hin, hord, hdist, heq⟩ := hq
    have hc := hin 0 (by norm_num)
    simp only [v_screen_pos, v_vscreen_size, v_objective, List.getD] at hc hW1 hW2 hH1 hH2
    norm_num at hc
    have hobj : objectiveSum 1 (initSP 1) q = 0 := by
      norm_num [objectiveSum, pairList, List.range_succ]
    rw [v_objective, hobj] at heq
    intro i hik hpre
    have h5 : v_nb 1 = 5 := by decide
    rw [h5] at hik
    interval_cases i <;> simp only [pOne, List.getD] <;> norm_num <;> omega

/-- Screen sizes of the spec's two-screen scenario. -/
def sizes5 : List Pair := [⟨1920, 1080⟩, ⟨1280, 1024⟩]

/-- Constraint matrix of the spec's two-screen scenario:
`constraints[0][1] = left`, `constraints[1][0] = right`. -/
def M5 : List (List Dir) := [[Dir.none, Dir.left], [Dir.right, Dir.none]]

/-- Solution point of the two-screen scenario for the identity template:
objective `1920`, `H = 1080`, `W = 3200`, `Y = (0, 28)`, `X = (0, 1920)`,
distance variable `0`. -/
def pStar5 : Nat → Int := fun i => [1920, 1080, 3200, 0, 28, 0, 1920, 0].getD i 0

theorem pStar5_lexmin :
    IsLexmin (v_nb 2) (Feasible 2 ⟨0, 0⟩ ⟨4000, 2000⟩ sizes5 (initSP 2)) pStar5 := by
  constructor
  · decide
  · intro q hq
    obtain ⟨⟨hW1, hW2⟩, ⟨hH1, hH2⟩, hin, hord, hdist, heq⟩ := hq
    have hc0 := hin 0 (by norm_num)
    have hc1 := hin 1 (by norm_num)
    have ho := hord 1 (by norm_num) 0 (by norm_num)
    have hd := hdist 1 (by norm_num) 0 (by norm_num)
    have hO : (initSP 2).ordering 1 0 = Dir.right := by decide
    simp only [orderingConstraint, hO] at ho
    simp only [distConstraint, hO, distPair] at hd
    have hobj : objectiveSum 2 (initSP 2) q =
        q (v_screen_pos 2 1 1) - q (v_screen_pos 2 0 1) + q (v_max_var 2 (pairIdx 1 0)) := by
      norm_num [objectiveSum, pairList, List.range_succ, gapTerm, distTerm, hO]
    rw [v_objective, hobj] at heq
    simp only [v_screen_pos, v_vscreen_size, v_objective, v_max_var, pairIdx, List.getD,
      sizes5] at hc0 hc1 ho hd heq hW1 hW2 hH1 hH2
    norm_num at hc0 hc1 ho hd heq
    have h56 : Int.tdiv 56 2 = 28 := by decide
    rw [h56] at hd
    intro i hik hpre
    have h8 : v_nb 2 = 8 := by decide
    rw [h8] at hik
    interval_cases i <;> simp only [pStar5, List.getD] <;> norm_num
    · omega
    · omega
    · omega
    · omega
    · have e0 := hpre 0 (by norm_num)
      have e3 := hpre 3 (by norm_num)
      simp only [pStar5, List.getD] at e0 e3
      norm_num at e0 e3
      omega
    · omega
    · have e5 := hpre 5 (by norm_num)
      simp only [pStar5, List.getD] at e5
      norm_num at e5
      omega
    · omega

theorem driverTemplates_one : driverTemplates 1 = [initSP 1] := by decide

theorem driverTemplates_two :
    driverTemplates 2 =
      [⟨[0, 1], [0, 1]⟩, ⟨[1, 0], [0, 1]⟩, ⟨[0, 1], [1, 0]⟩, ⟨[1, 0], [1, 0]⟩] := by
  decide

/-- Oracle for the single-screen instance. -/
def SOne : SeqPair → Option (Nat → Int) := fun _ => Option.some pOne

theorem SOne_ok : SolverOK 1 ⟨0, 0⟩ ⟨5, 5⟩ [⟨2, 3⟩] [[Dir.none]] SOne := by
  intro sp hmem _
  rw [driverTemplates_one] at hmem
  rw [List.mem_singleton] at hmem
  subst hmem
  exact pOne_lexmin

/-- Oracle for the spec's two-screen scenario. -/
def S5 : SeqPair → Option (Nat → Int) :=
  fun sp => if sp = initSP 2 then Option.some pStar5 else Option.none

theorem S5_ok : SolverOK 2 ⟨0, 0⟩ ⟨4000, 2000⟩ sizes5 M5 S5 := by
  intro sp hmem hcomp
  rw [driverTemplates_two] at hmem
  fin_cases hmem
  · unfold S5
    rw [if_pos (by decide : (⟨[0, 1], [0, 1]⟩ : SeqPair) = initSP 2)]
    have h : initSP 2 = (⟨[0, 1], [0, 1]⟩ : SeqPair) := by decide
    rw [← h]
    exact pStar5_lexmin
  · exact absurd hcomp (by decide)
  · exact absurd hcomp (by decide)
  · exact absurd hcomp (by decide)

/-- The infeasible single-screen instance: a `2 × 2` screen cannot fit in a
virtual screen bounded by `(1, 1)`. -/
theorem infeasible_one : ∀ p, ¬ Feasible 1 ⟨0, 0⟩ ⟨1, 1⟩ [⟨2, 2⟩] (initSP 1) p := by
  intro p hp
  obtain ⟨⟨hW1, hW2⟩, _, hin, _⟩ := hp
  have hc := (hin 0 (by norm_num)).1
  simp only [v_screen_pos, v_vscreen_size, v_objective, List.getD] at hc hW1 hW2
  norm_num at hc hW1 hW2
  omega

/-- Oracle for the infeasible instance. -/
def SNone : SeqPair → Option (Nat → Int) := fun _ => Option.none

theorem SNone_ok : SolverOK 1 ⟨0, 0⟩ ⟨1, 1⟩ [⟨2, 2⟩] [[Dir.none]] SNone := by
  intro sp hmem _
  rw [driverTemplates_one] at hmem
  rw [List.mem_singleton] at hmem
  subst hmem
  exact infeasible_one

/-!
### Separation of feasible points
-/

theorem solutionPositions_getD {n i : Nat} (hi : i < n) (p : Nat → Int) :
    (solutionPositions n p).getD i ⟨0, 0⟩ =
      ⟨p (v_screen_pos n i 1), p (v_screen_pos n i 0)⟩ := by
  rw [List.getD_eq_getElem _ _ (by simpa [solutionPositions] using hi)]
  simp [solutionPositions]

/-- Any point of the packer's solution set separates every ordered pair of
screens along the template's induced direction, so their half-open
rectangles are disjoint. -/
theorem feasible_disjoint {n : Nat} {vmin vmax : Pair} {sizes : List Pair} {sp : SeqPair}
    {p : Nat → Int} (hf : Feasible n vmin vmax sizes sp p) {i j : Nat}
    (hi : i < n) (hj : j < n) (hne : i ≠ j) :
    RectDisjoint ⟨p (v_screen_pos n i 1), p (v_screen_pos n i 0)⟩ (sizes.getD i ⟨0, 0⟩)
      ⟨p (v_screen_pos n j 1), p (v_screen_pos n j 0)⟩ (sizes.getD j ⟨0, 0⟩) := by
  intro q hq
  simp only [InRect] at hq
  obtain ⟨⟨a1, a2, a3, a4⟩, b1, b2, b3, b4⟩ := hq
  rcases Nat.lt_or_gt_of_ne hne with hij | hij
  · have hc := hf.2.2.2.1 j hj i hij
    unfold orderingConstraint at hc
    rcases hD : sp.ordering j i <;> rw [hD] at hc <;> simp only at hc <;> omega
  · have hc := hf.2.2.2.1 i hi j hij
    unfold orderingConstraint at hc
    rcases hD : sp.ordering i j <;> rw [hD] at hc <;> simp only at hc <;> omega

/-- Decompose a successful run of `compute_screen_layout` into the recorded
template and solution point. -/
theorem run_success_data {vmin vmax : Pair} {sizes : List Pair} {M : List (List Dir)}
    {S : SeqPair → Option (Nat → Int)} {vss0 vss : Pair} {pos0 pos : List Pair}
    {w : Option SeqPair}
    (hS : SolverOK sizes.length vmin vmax sizes M S)
    (hrun : compute_screen_layout vmin vmax sizes M S vss0 pos0 = (true, vss, pos, w)) :
    ∃ sp p, sp ∈ driverTemplates sizes.length ∧ compatibleB sizes.length M sp = true ∧
      IsLexmin (v_nb sizes.length) (Feasible sizes.length vmin vmax sizes sp) p ∧
      vss = solutionVSize p ∧ pos = solutionPositions sizes.length p ∧
      w = Option.some sp := by
  unfold compute_screen_layout at hrun
  have hgood := goodState_final sizes.length vmin vmax sizes M S hS vss0 pos0
  set final := (driverTemplates sizes.length).foldl (driverStep sizes.length M S)
    ⟨init, vss0, pos0, Option.none⟩ with hfinal
  simp only [Prod.mk.injEq] at hrun
  obtain ⟨h1, h2, h3, h4⟩ := hrun
  rw [bne_iff_ne] at h1
  obtain ⟨sp, p, hmem, hcomp, hlex, _, hvss, hpos, hw⟩ := hgood h1
  exact ⟨sp, p, hmem, hcomp, hlex, h2 ▸ hvss, h3 ▸ hpos, h4 ▸ hw⟩

theorem compatibleB_iff (n : Nat) (M : List (List Dir)) (sp : SeqPair) :
    compatibleB n M sp = true ↔
      ∀ sa, sa < n → ∀ sb, sb < sa →
        (M.getD sa []).getD sb Dir.none = Dir.none ∨
        (M.getD sa []).getD sb Dir.none = sp.ordering sa sb := by
  unfold compatibleB
  simp [List.all_eq_true, List.mem_range]

/-- The recorded positions of the spec's two-screen scenario. -/
def pos5 : List Pair := [⟨0, 0⟩, ⟨1920, 28⟩]

/-!
### Claim theorems
-/

/-- C1: for every input satisfying the §6 preconditions on which
`compute_screen_layout` returns `true`, the returned screen rectangles are
pairwise disjoint. -/
theorem c1_disjoint_rectangles (vmin vmax : Pair) (sizes : List Pair) (M : List (List Dir))
    (S : SeqPair → Option (Nat → Int)) (vss0 vss : Pair) (pos0 pos : List Pair)
    (w : Option SeqPair)
    (hpre : Preconds vmin vmax sizes M)
    (hS : SolverOK sizes.length vmin vmax sizes M S)
    (hrun : compute_screen_layout vmin vmax sizes M S vss0 pos0 = (true, vss, pos, w)) :
    ∀ i j, i < sizes.length → j < sizes.length → i ≠ j →
      RectDisjoint (pos.getD i ⟨0, 0⟩) (sizes.getD i ⟨0, 0⟩)
        (pos.getD j ⟨0, 0⟩) (sizes.getD j ⟨0, 0⟩) := by
  intro i j hi hj hne
  obtain ⟨sp, p, hmem, hcomp, hlex, hvss, hpos, hw⟩ := run_success_data hS hrun
  rw [hpos, solutionPositions_getD hi, solutionPositions_getD hj]
  exact feasible_disjoint hlex.1 hi hj hne

/-- Witness for C1 on the spec's two-screen scenario. -/
theorem c1_disjoint_rectangles_witness :
    RectDisjoint (pos5.getD 0 ⟨0, 0⟩) (sizes5.getD 0 ⟨0, 0⟩)
      (pos5.getD 1 ⟨0, 0⟩) (sizes5.getD 1 ⟨0, 0⟩) :=
  c1_disjoint_rectangles ⟨0, 0⟩ ⟨4000, 2000⟩ sizes5 M5 S5 ⟨7, 7⟩ ⟨3200, 1080⟩ [] pos5
    (Option.some (initSP 2)) (by decide) S5_ok (by decide) 0 1 (by decide) (by decide)
    (by decide)

/-- C2: for every input satisfying the §6 preconditions on which
`compute_screen_layout` returns `true`, every non-`none` user constraint is
honored by the returned positions, via the inequality of its direction. -/
theorem c2_constraint_compliance (vmin vmax : Pair) (sizes : List Pair) (M : List (List Dir))
    (S : SeqPair → Option (Nat → Int)) (vss0 vss : Pair) (pos0 pos : List Pair)
    (w : Option SeqPair)
    (hpre : Preconds vmin vmax sizes M)
    (hS : SolverOK sizes.length vmin vmax sizes M S)
    (hrun : compute_screen_layout vmin vmax sizes M S vss0 pos0 = (true, vss, pos, w)) :
    ∀ a b, a < sizes.length → b < sizes.length →
      ((M.getD a []).getD b Dir.none = Dir.left →
        (pos.getD a ⟨0, 0⟩).x + (sizes.getD a ⟨0, 0⟩).x ≤ (pos.getD b ⟨0, 0⟩).x) ∧
      ((M.getD a []).getD b Dir.none = Dir.right →
        (pos.getD b ⟨0, 0⟩).x + (sizes.getD b ⟨0, 0⟩).x ≤ (pos.getD a ⟨0, 0⟩).x) ∧
      ((M.getD a []).getD b Dir.none = Dir.above →
        (pos.getD a ⟨0, 0⟩).y + (sizes.getD a ⟨0, 0⟩).y ≤ (pos.getD b ⟨0, 0⟩).y) ∧
      ((M.getD a []).getD b Dir.none = Dir.under →
        (pos.getD b ⟨0, 0⟩).y + (sizes.getD b ⟨0, 0⟩).y ≤ (pos.getD a ⟨0, 0⟩).y) := by
  obtain ⟨sp, p, hmem, hcomp, hlex, hvss, hpos, hw⟩ := run_success_data hS hrun
  have hf := hlex.1
  rw [compatibleB_iff] at hcomp
  obtain ⟨-, -, -, -, -, -, hsym, hdiag⟩ := hpre
  intro a b ha hb
  have hdiagab : ∀ d, d ≠ Dir.none → (M.getD a []).getD b Dir.none = d → a ≠ b := by
    intro d hdn hd hab
    rw [hab, hdiag b hb] at hd
    exact hdn hd.symm
  have main : ∀ d, (M.getD a []).getD b Dir.none = d → d ≠ Dir.none →
      orderingConstraint sizes.length sizes sp p (max a b) (min a b) ∧
      ((a < b ∧ sp.ordering b a = dir_invert d) ∨ (b < a ∧ sp.ordering a b = d)) := by
    intro d hd hdn
    have hab := hdiagab d hdn hd
    rcases Nat.lt_or_gt_of_ne hab with h | h
    · have hm : (M.getD b []).getD a Dir.none = dir_invert d := by
        rw [hsym b hb a ha, hd]
      have ho := hcomp b hb a h
      rw [hm] at ho
      rcases ho with ho | ho
      · exfalso
        cases d <;> first | exact hdn rfl | exact Dir.noConfusion ho
      · constructor
        · have := hf.2.2.2.1 b hb a h
          rwa [Nat.max_eq_right (Nat.le_of_lt h), Nat.min_eq_left (Nat.le_of_lt h)]
        · exact Or.inl ⟨h, ho.symm⟩
    · have ho := hcomp a ha b h
      rw [hd] at ho
      rcases ho with ho | ho
      · exact absurd ho hdn
      · constructor
        · have := hf.2.2.2.1 a ha b h
          rwa [Nat.max_eq_left (Nat.le_of_lt h), Nat.min_eq_right (Nat.le_of_lt h)]
        · exact Or.inr ⟨h, ho.symm⟩
  refine ⟨?_, ?_, ?_, ?_⟩ <;> intro hd
  · obtain ⟨hc, hcase⟩ := main Dir.left hd (by intro h; exact Dir.noConfusion h)
    rcases hcase with ⟨h, ho⟩ | ⟨h, ho⟩
    · rw [Nat.max_eq_right (Nat.le_of_lt h), Nat.min_eq_left (Nat.le_of_lt h)] at hc
      unfold orderingConstraint at hc
      rw [ho] at hc
      rw [hpos, solutionPositions_getD ha, solutionPositions_getD hb]
      exact hc
    · rw [Nat.max_eq_left (Nat.le_of_lt h), Nat.min_eq_right (Nat.le_of_lt h)] at hc
      unfold orderingConstraint at hc
      rw [ho] at hc
      rw [hpos, solutionPositions_getD ha, solutionPositions_getD hb]
      exact hc
  · obtain ⟨hc, hcase⟩ := main Dir.right hd (by intro h; exact Dir.noConfusion h)
    rcases hcase with ⟨h, ho⟩ | ⟨h, ho⟩
    · rw [Nat.max_eq_right (Nat.le_of_lt h), Nat.min_eq_left (Nat.le_of_lt h)] at hc
      unfold orderingConstraint at hc
      rw [ho] at hc
      rw [hpos, solutionPositions_getD ha, solutionPositions_getD hb]
      exact hc
    · rw [Nat.max_eq_left (Nat.le_of_lt h), Nat.min_eq_right (Nat.le_of_lt h)] at hc
      unfold orderingConstraint at hc
      rw [ho] at hc
      rw [hpos, solutionPositions_getD ha, solutionPositions_getD hb]
      exact hc
  · obtain ⟨hc, hcase⟩ := main Dir.above hd (by intro h; exact Dir.noConfusion h)
    rcases hcase with ⟨h, ho⟩ | ⟨h, ho⟩
    · rw [Nat.max_eq_right (Nat.le_of_lt h), Nat.min_eq_left (Nat.le_of_lt h)] at hc
      unfold orderingConstraint at hc
      rw [ho] at hc
      rw [hpos, solutionPositions_getD ha, solutionPositions_getD hb]
      exact hc
    · rw [Nat.max_eq_left (Nat.le_of_lt h), Nat.min_eq_right (Nat.le_of_lt h)] at hc
      unfold orderingConstraint at hc
      rw [ho] at hc
      rw [hpos, solutionPositions_getD ha, solutionPositions_getD hb]
      exact hc
  · obtain ⟨hc, hcase⟩ := main Dir.under hd (by intro h; exact Dir.noConfusion h)
    rcases hcase with ⟨h, ho⟩ | ⟨h, ho⟩
    · rw [Nat.max_eq_right (Nat.le_of_lt h), Nat.min_eq_left (Nat.le_of_lt h)] at hc
      unfold orderingConstraint at hc
      rw [ho] at hc
      rw [hpos, solutionPositions_getD ha, solutionPositions_getD hb]
      exact hc
    · rw [Nat.max_eq_left (Nat.le_of_lt h), Nat.min_eq_right (Nat.le_of_lt h)] at hc
      unfold orderingConstraint at hc
      rw [ho] at hc
      rw [hpos, solutionPositions_getD ha, solutionPositions_getD hb]
      exact hc

/-- Witness for C2 on the spec's two-screen scenario: the `left` constraint
between screens 0 and 1 is honored. -/
theorem c2_constraint_compliance_witness :
    (pos5.getD 0 ⟨0, 0⟩).x + (sizes5.getD 0 ⟨0, 0⟩).x ≤ (pos5.getD 1 ⟨0, 0⟩).x :=
  (c2_constraint_compliance ⟨0, 0⟩ ⟨4000, 2000⟩ sizes5 M5 S5 ⟨7, 7⟩ ⟨3200, 1080⟩ [] pos5
    (Option.some (initSP 2)) (by decide) S5_ok (by decide) 0 1 (by decide) (by decide)).1
    (by decide)

theorem driverStep_incompat {n : Nat} {M : List (List Dir)} {S : SeqPair → Option (Nat → Int)}
    {st : DriverState} {sp : SeqPair} (h : compatibleB n M sp = false) :
    driverStep n M S st sp = st := by
  unfold driverStep
  rw [h]
  simp

theorem driverStep_none {n : Nat} {M : List (List Dir)} {S : SeqPair → Option (Nat → Int)}
    {st : DriverState} {sp : SeqPair} (hp : S sp = Option.none) :
    driverStep n M S st sp = st := by
  unfold driverStep
  rw [hp]
  split <;> rfl

theorem driverStep_record {n : Nat} {M : List (List Dir)} {S : SeqPair → Option (Nat → Int)}
    {st : DriverState} {sp : SeqPair} {p : Nat → Int}
    (hc : compatibleB n M sp = true) (hp : S sp = Option.some p)
    (hcond : (decide (p v_objective < st.last_objective) ||
      (p v_objective == st.last_objective && Pair.lt (solutionVSize p) st.vscreen_size)) = true) :
    driverStep n M S st sp =
      ⟨p v_objective, solutionVSize p, solutionPositions n p, Option.some sp⟩ := by
  unfold driverStep
  rw [hc, hp]
  dsimp only
  rw [hcond]
  simp

theorem driverStep_norecord {n : Nat} {M : List (List Dir)} {S : SeqPair → Option (Nat → Int)}
    {st : DriverState} {sp : SeqPair} {p : Nat → Int}
    (hc : compatibleB n M sp = true) (hp : S sp = Option.some p)
    (hcond : (decide (p v_objective < st.last_objective) ||
      (p v_objective == st.last_objective && Pair.lt (solutionVSize p) st.vscreen_size)) = false) :
    driverStep n M S st sp = st := by
  unfold driverStep
  rw [hc, hp]
  dsimp only
  rw [hcond]
  simp

/-- C5: on the input `vmin = (0,0)`, `vmax = (4000,2000)`,
`sizes = [(1920,1080), (1280,1024)]`, `constraints[0][1] = left`
(symmetrically closed), `compute_screen_layout` returns `true` with
`virtual_size = (3200, 1080)` and `positions = [(0,0), (1920,28)]`:
the second screen sits immediately right of the first and is vertically
centered, `positions[1].y = (1080 - 1024) / 2 = 28`. -/
theorem c5_two_screen_left_scenario (S : SeqPair → Option (Nat → Int)) (vss0 : Pair)
    (pos0 : List Pair) (hS : SolverOK 2 ⟨0, 0⟩ ⟨4000, 2000⟩ sizes5 M5 S) :
    compute_screen_layout ⟨0, 0⟩ ⟨4000, 2000⟩ sizes5 M5 S vss0 pos0 =
      (true, ⟨3200, 1080⟩, pos5, Option.some (initSP 2)) := by
  have hcomp1 : compatibleB 2 M5 (initSP 2) = true := by decide
  have hspec := hS (initSP 2) (by decide) hcomp1
  cases hS1 : S (initSP 2) with
  | none =>
      rw [hS1] at hspec
      exact absurd (by decide : Feasible 2 ⟨0, 0⟩ ⟨4000, 2000⟩ sizes5 (initSP 2) pStar5)
        (hspec pStar5)
  | some p =>
      rw [hS1] at hspec
      have hagree := isLexmin_agree hspec pStar5_lexmin
      have h0 : p 0 = 1920 := by simpa [pStar5] using hagree 0 (by decide)
      have h1 : p 1 = 1080 := by simpa [pStar5] using hagree 1 (by decide)
      have h2 : p 2 = 3200 := by simpa [pStar5] using hagree 2 (by decide)
      have h3 : p 3 = 0 := by simpa [pStar5] using hagree 3 (by decide)
      have h4 : p 4 = 28 := by simpa [pStar5] using hagree 4 (by decide)
      have h5 : p 5 = 0 := by simpa [pStar5] using hagree 5 (by decide)
      have h6 : p 6 = 1920 := by simpa [pStar5] using hagree 6 (by decide)
      have hvs : solutionVSize p = (⟨3200, 1080⟩ : Pair) := by
        show Pair.mk (p 2) (p 1) = _
        rw [h2, h1]
      have hps : solutionPositions 2 p = pos5 := by
        show [Pair.mk (p 5) (p 3), Pair.mk (p 6) (p 4)] = _
        rw [h5, h3, h6, h4]
        rfl
      have e1 : driverStep 2 M5 S ⟨init, vss0, pos0, Option.none⟩ ⟨[0, 1], [0, 1]⟩ =
          ⟨1920, ⟨3200, 1080⟩, pos5, Option.some (initSP 2)⟩ := by
        have hsp : (⟨[0, 1], [0, 1]⟩ : SeqPair) = initSP 2 := by decide
        rw [hsp]
        rw [driverStep_record hcomp1 hS1]
        · simp only [v_objective] at h0 ⊢
          rw [h0, hvs, hps]
        · rw [Bool.or_eq_true]
          left
          rw [decide_eq_true_eq]
          simp only [v_objective]
          rw [h0]
          decide
      have hfold : (driverTemplates 2).foldl (driverStep 2 M5 S)
          ⟨init, vss0, pos0, Option.none⟩ =
          ⟨1920, ⟨3200, 1080⟩, pos5, Option.some (initSP 2)⟩ := by
        rw [driverTemplates_two]
        simp only [List.foldl_cons, List.foldl_nil]
        rw [e1, driverStep_incompat (by decide), driverStep_incompat (by decide),
          driverStep_incompat (by decide)]
      show (let n := sizes5.length;
        let final := (driverTemplates n).foldl (driverStep n M5 S) ⟨init, vss0, pos0, Option.none⟩;
        (final.last_objective != init, final.vscreen_size, final.screen_positions, final.winner)) = _
      simp only [sizes5, List.length_cons, List.length_nil]
      rw [show (0 : Nat) + 1 + 1 = 2 from rfl] at *
      rw [hfold]
      simp only [DriverState.last_objective, DriverState.vscreen_size,
        DriverState.screen_positions, DriverState.winner]
      rw [show ((1920 : Int) != init) = true from by decide]

/-- Witness for C5: the concrete oracle `S5` realizes the solver
specification, and the run produces exactly the spec's expected output. -/
theorem c5_two_screen_left_scenario_witness :
    compute_screen_layout ⟨0, 0⟩ ⟨4000, 2000⟩ sizes5 M5 S5 ⟨7, 7⟩ [] =
      (true, ⟨3200, 1080⟩, pos5, Option.some (initSP 2)) :=
  c5_two_screen_left_scenario S5 ⟨7, 7⟩ [] S5_ok

/-!
### Two-run determinism machinery
-/

theorem foldl_invariant2 {α σ : Type} (f g : σ → α → σ) (P : σ → σ → Prop) (Q : α → Prop)
    (hstep : ∀ s t a, Q a → P s t → P (f s a) (g t a)) :
    ∀ l : List α, (∀ a ∈ l, Q a) → ∀ s t, P s t → P (l.foldl f s) (l.foldl g t) := by
  intro l
  induction l with
  | nil => intro _ s t hst; exact hst
  | cons a l IH =>
      intro hQ s t hst
      exact IH (fun x hx => hQ x (List.mem_cons_of_mem a hx)) (f s a) (g t a)
        (hstep s t a (hQ a (List.mem_cons_self a l)) hst)

/-- The synchronization invariant between two driver runs that differ only
in the caller-supplied initial output values (and in the solver oracle,
both oracles being valid): recorded objectives agree, and once the sentinel
has been beaten the recorded outputs agree. -/
def SyncStates (s t : DriverState) : Prop :=
  s.last_objective = t.last_objective ∧
  (s.last_objective ≠ init →
    s.vscreen_size = t.vscreen_size ∧ s.screen_positions = t.screen_positions)

theorem syncStates_step (n : Nat) (vmin vmax : Pair) (sizes : List Pair) (M : List (List Dir))
    (S1 S2 : SeqPair → Option (Nat → Int))
    (hS1 : SolverOK n vmin vmax sizes M S1) (hS2 : SolverOK n vmin vmax sizes M S2)
    (s t : DriverState) (sp : SeqPair) (hmem : sp ∈ driverTemplates n)
    (hst : SyncStates s t) :
    SyncStates (driverStep n M S1 s sp) (driverStep n M S2 t sp) := by
  obtain ⟨hlast, hfields⟩ := hst
  cases hc : compatibleB n M sp with
  | false => rw [driverStep_incompat hc, driverStep_incompat hc]; exact ⟨hlast, hfields⟩
  | true =>
      have hspec1 := hS1 sp hmem hc
      have hspec2 := hS2 sp hmem hc
      cases hA : S1 sp with
      | none =>
          rw [hA] at hspec1
          cases hB : S2 sp with
          | none => rw [driverStep_none hA, driverStep_none hB]; exact ⟨hlast, hfields⟩
          | some q =>
              rw [hB] at hspec2
              exact absurd hspec2.1 (hspec1 q)
      | some p =>
          rw [hA] at hspec1
          cases hB : S2 sp with
          | none =>
              rw [hB] at hspec2
              exact absurd hspec1.1 (hspec2 p)
          | some q =>
              rw [hB] at hspec2
              have hagree := isLexmin_agree hspec1 hspec2
              have ep0 : p v_objective = q v_objective :=
                hagree v_objective (v_objective_lt_v_nb n)
              have evs : solutionVSize p = solutionVSize q := by
                unfold solutionVSize
                rw [hagree (v_vscreen_size 1) (v_vscreen_size_lt_v_nb n 1 (by omega)),
                  hagree (v_vscreen_size 0) (v_vscreen_size_lt_v_nb n 0 (by omega))]
              have eps : solutionPositions n p = solutionPositions n q := by
                unfold solutionPositions
                refine List.map_congr_left ?_
                intro sc hsc
                rw [List.mem_range] at hsc
                rw [hagree (v_screen_pos n sc 1) (v_screen_pos_lt_v_nb n sc 1 hsc (by omega)),
                  hagree (v_screen_pos n sc 0) (v_screen_pos_lt_v_nb n sc 0 hsc (by omega))]
              by_cases hlt : p v_objective < s.last_objective
              · have hc1 : (decide (p v_objective < s.last_objective) ||
                    (p v_objective == s.last_objective &&
                      Pair.lt (solutionVSize p) s.vscreen_size)) = true := by
                  rw [Bool.or_eq_true]; left; exact decide_eq_true hlt
                have hc2 : (decide (q v_objective < t.last_objective) ||
                    (q v_objective == t.last_objective &&
                      Pair.lt (solutionVSize q) t.vscreen_size)) = true := by
                  rw [Bool.or_eq_true]; left
                  rw [← ep0, ← hlast]
                  exact decide_eq_true hlt
                rw [driverStep_record hc hA hc1, driverStep_record hc hB hc2]
                exact ⟨ep0.symm ▸ rfl, fun _ => ⟨evs, eps⟩⟩
              · by_cases heq : p v_objective = s.last_objective
                · by_cases hinit : s.last_objective = init
                  · constructor
                    · have e1 : (driverStep n M S1 s sp).last_objective = init := by
                        cases hc1 : (decide (p v_objective < s.last_objective) ||
                            (p v_objective == s.last_objective &&
                              Pair.lt (solutionVSize p) s.vscreen_size)) with
                        | false => rw [driverStep_norecord hc hA hc1]; rw [hlast] at hinit ⊢; exact hlast ▸ hinit
                        | true => rw [driverStep_record hc hA hc1]; rw [← heq] at hinit; exact hinit
                      have e2 : (driverStep n M S2 t sp).last_objective = init := by
                        cases hc2 : (decide (q v_objective < t.last_objective) ||
                            (q v_objective == t.last_objective &&
                              Pair.lt (solutionVSize q) t.vscreen_size)) with
                        | false => rw [driverStep_norecord hc hB hc2]; rw [← hlast]; exact hinit
                        | true =>
                            rw [driverStep_record hc hB hc2]
                            show q v_objective = init
                            rw [← ep0, heq]; exact hinit
                      rw [e1, e2]
                    · intro hne
                      exfalso
                      apply hne
                      have e1 : (driverStep n M S1 s sp).last_objective = init := by
                        cases hc1 : (decide (p v_objective < s.last_objective) ||
                            (p v_objective == s.last_objective &&
                              Pair.lt (solutionVSize p) s.vscreen_size)) with
                        | false => rw [driverStep_norecord hc hA hc1]; exact hinit
                        | true => rw [driverStep_record hc hA hc1]; rw [← heq] at hinit; exact hinit
                      exact e1
                  · obtain ⟨hv, hp2⟩ := hfields hinit
                    have hcond : ∀ b1 b2 : Bool,
                        b1 = (decide (p v_objective < s.last_objective) ||
                          (p v_objective == s.last_objective &&
                            Pair.lt (solutionVSize p) s.vscreen_size)) →
                        b2 = (decide (q v_objective < t.last_objective) ||
                          (q v_objective == t.last_objective &&
                            Pair.lt (solutionVSize q) t.vscreen_size)) → b1 = b2 := by
                      intro b1 b2 h1 h2
                      rw [h1, h2, ← ep0, ← hlast, ← evs, ← hv]
                    cases hc1 : (decide (p v_objective < s.last_objective) ||
                        (p v_objective == s.last_objective &&
                          Pair.lt (solutionVSize p) s.vscreen_size)) with
                    | false =>
                        have hc2 := (hcond _ _ rfl rfl).symm.trans hc1
                        rw [driverStep_norecord hc hA hc1, driverStep_norecord hc hB hc2]
                        exact ⟨hlast, hfields⟩
                    | true =>
                        have hc2 := (hcond _ _ rfl rfl).symm.trans hc1
                        rw [driverStep_record hc hA hc1, driverStep_record hc hB hc2]
                        exact ⟨ep0.symm ▸ rfl, fun _ => ⟨evs, eps⟩⟩
                · have hbeq : (p v_objective == s.last_objective) = false :=
                    beq_eq_false_iff_ne.mpr heq
                  have hc1 : (decide (p v_objective < s.last_objective) ||
                      (p v_objective == s.last_objective &&
                        Pair.lt (solutionVSize p) s.vscreen_size)) = false := by
                    rw [Bool.or_eq_false_iff]
                    constructor
                    · exact decide_eq_false hlt
                    · rw [Bool.and_eq_false_iff]
                      left
                      exact hbeq
                  have hc2 : (decide (q v_objective < t.last_objective) ||
                      (q v_objective == t.last_objective &&
                        Pair.lt (solutionVSize q) t.vscreen_size)) = false := by
                    rw [Bool.or_eq_false_iff, ← ep0, ← hlast]
                    constructor
                    · exact decide_eq_false hlt
                    · rw [Bool.and_eq_false_iff]
                      left
                      exact hbeq
                  rw [driverStep_norecord hc hA hc1, driverStep_norecord hc hB hc2]
                  exact ⟨hlast, hfields⟩

/-- Counterexample to C3 as stated: on an infeasible input (one `2 × 2`
screen, `vmax = (1, 1)`) satisfying the §6 preconditions, two runs with the
same valid solver oracle but different caller-passed initial values of the
`vscreen_size` output parameter end with different values in it (both
return `false`), so the tuple named by the claim is not a function of
`(vmin, vmax, sizes, constraints)` alone. -/
theorem c3_counterexample :
    SolverOK 1 ⟨0, 0⟩ ⟨1, 1⟩ [⟨2, 2⟩] [[Dir.none]] SNone ∧
    Preconds ⟨0, 0⟩ ⟨1, 1⟩ [⟨2, 2⟩] [[Dir.none]] ∧
    (compute_screen_layout ⟨0, 0⟩ ⟨1, 1⟩ [⟨2, 2⟩] [[Dir.none]] SNone ⟨0, 0⟩ []).1 = false ∧
    (compute_screen_layout ⟨0, 0⟩ ⟨1, 1⟩ [⟨2, 2⟩] [[Dir.none]] SNone ⟨5, 5⟩ []).1 = false ∧
    (compute_screen_layout ⟨0, 0⟩ ⟨1, 1⟩ [⟨2, 2⟩] [[Dir.none]] SNone ⟨0, 0⟩ []).2.1 = ⟨0, 0⟩ ∧
    (compute_screen_layout ⟨0, 0⟩ ⟨1, 1⟩ [⟨2, 2⟩] [[Dir.none]] SNone ⟨5, 5⟩ []).2.1 = ⟨5, 5⟩ ∧
    (⟨0, 0⟩ : Pair) ≠ ⟨5, 5⟩ :=
  ⟨SNone_ok, by decide, by decide, by decide, by decide, by decide, by decide⟩

/-- C3 (amended): the returned boolean is a deterministic function of
`(vmin, vmax, sizes, constraints)` alone, and whenever it is `true` so are
the virtual-screen size and the positions list; only on failure can the
output parameters keep caller-dependent values. -/
theorem c3_deterministic_result (vmin vmax : Pair) (sizes : List Pair) (M : List (List Dir))
    (S1 S2 : SeqPair → Option (Nat → Int)) (vssA vssB : Pair) (posA posB : List Pair)
    (hpre : Preconds vmin vmax sizes M)
    (hS1 : SolverOK sizes.length vmin vmax sizes M S1)
    (hS2 : SolverOK sizes.length vmin vmax sizes M S2) :
    (compute_screen_layout vmin vmax sizes M S1 vssA posA).1 =
      (compute_screen_layout vmin vmax sizes M S2 vssB posB).1 ∧
    ((compute_screen_layout vmin vmax sizes M S1 vssA posA).1 = true →
      (compute_screen_layout vmin vmax sizes M S1 vssA posA).2.1 =
        (compute_screen_layout vmin vmax sizes M S2 vssB posB).2.1 ∧
      (compute_screen_layout vmin vmax sizes M S1 vssA posA).2.2.1 =
        (compute_screen_layout vmin vmax sizes M S2 vssB posB).2.2.1) := by
  have hsync := foldl_invariant2 (driverStep sizes.length M S1) (driverStep sizes.length M S2)
    SyncStates (fun sp => sp ∈ driverTemplates sizes.length)
    (fun s t sp hmem hst =>
      syncStates_step sizes.length vmin vmax sizes M S1 S2 hS1 hS2 s t sp hmem hst)
    (driverTemplates sizes.length) (fun a ha => ha)
    ⟨init, vssA, posA, Option.none⟩ ⟨init, vssB, posB, Option.none⟩ ⟨rfl, fun h => absurd rfl h⟩
  obtain ⟨hlast, hfields⟩ := hsync
  unfold compute_screen_layout
  constructor
  · show ((_ : DriverState).last_objective != init) = ((_ : DriverState).last_objective != init)
    rw [hlast]
  · intro htrue
    have hne : ((driverTemplates sizes.length).foldl (driverStep sizes.length M S1)
        ⟨init, vssA, posA, Option.none⟩).last_objective ≠ init := by
      have := htrue
      unfold compute_screen_layout at this
      simpa [bne_iff_ne] using this
    obtain ⟨hv, hp⟩ := hfields hne
    exact ⟨hv, hp⟩

/-- Witness for the amended C3 on the single-screen instance: two runs with
different initial output values agree on the boolean and, being successful,
on both outputs. -/
theorem c3_deterministic_result_witness :
    (compute_screen_layout ⟨0, 0⟩ ⟨5, 5⟩ [⟨2, 3⟩] [[Dir.none]] SOne ⟨9, 9⟩ []).1 =
      (compute_screen_layout ⟨0, 0⟩ ⟨5, 5⟩ [⟨2, 3⟩] [[Dir.none]] SOne ⟨0, 4⟩ [⟨8, 8⟩]).1 ∧
    ((compute_screen_layout ⟨0, 0⟩ ⟨5, 5⟩ [⟨2, 3⟩] [[Dir.none]] SOne ⟨9, 9⟩ []).1 = true →
      (compute_screen_layout ⟨0, 0⟩ ⟨5, 5⟩ [⟨2, 3⟩] [[Dir.none]] SOne ⟨9, 9⟩ []).2.1 =
        (compute_screen_layout ⟨0, 0⟩ ⟨5, 5⟩ [⟨2, 3⟩] [[Dir.none]] SOne ⟨0, 4⟩ [⟨8, 8⟩]).2.1 ∧
      (compute_screen_layout ⟨0, 0⟩ ⟨5, 5⟩ [⟨2, 3⟩] [[Dir.none]] SOne ⟨9, 9⟩ []).2.2.1 =
        (compute_screen_layout ⟨0, 0⟩ ⟨5, 5⟩ [⟨2, 3⟩] [[Dir.none]] SOne ⟨0, 4⟩ [⟨8, 8⟩]).2.2.1) :=
  c3_deterministic_result ⟨0, 0⟩ ⟨5, 5⟩ [⟨2, 3⟩] [[Dir.none]] SOne SOne ⟨9, 9⟩ ⟨0, 4⟩ []
    [⟨8, 8⟩] (by decide) SOne_ok SOne_ok

theorem dir_invert_invert (d : Dir) : dir_invert (dir_invert d) = d := by
  cases d <;> rfl

/-- C6: for every sequence pair of permutations of `0..n-1` and ordered
index pair `(sa, sb)` with `sa ≠ sb`, the induced direction is never `none`
and follows the §3 sign table on the differences `a[sb]-a[sa]` and
`b[sb]-b[sa]`. -/
theorem c6_ordering_sign_table (n : Nat) (sp : SeqPair) (h : IsSeqPairOf n sp)
    (sa sb : Nat) (hsa : sa < n) (hsb : sb < n) (hne : sa ≠ sb) :
    sp.ordering sa sb ≠ Dir.none ∧
    (0 < (sp.a.getD sb 0 : Int) - (sp.a.getD sa 0 : Int) →
      0 < (sp.b.getD sb 0 : Int) - (sp.b.getD sa 0 : Int) → sp.ordering sa sb = Dir.left) ∧
    (0 < (sp.a.getD sb 0 : Int) - (sp.a.getD sa 0 : Int) →
      (sp.b.getD sb 0 : Int) - (sp.b.getD sa 0 : Int) < 0 → sp.ordering sa sb = Dir.above) ∧
    ((sp.a.getD sb 0 : Int) - (sp.a.getD sa 0 : Int) < 0 →
      0 < (sp.b.getD sb 0 : Int) - (sp.b.getD sa 0 : Int) → sp.ordering sa sb = Dir.under) ∧
    ((sp.a.getD sb 0 : Int) - (sp.a.getD sa 0 : Int) < 0 →
      (sp.b.getD sb 0 : Int) - (sp.b.getD sa 0 : Int) < 0 → sp.ordering sa sb = Dir.right) := by
  refine ⟨ordering_ne_none sp sa sb, ?_, ?_, ?_, ?_⟩ <;>
    intro h1 h2 <;> unfold SeqPair.ordering <;> dsimp only <;>
    split_ifs <;> first | rfl | omega

/-- Witness for C6 on the identity sequence pair for two screens: the signs
`a[0]-a[1] < 0`, `b[0]-b[1] < 0` give direction `right`. -/
theorem c6_ordering_sign_table_witness :
    (⟨[0, 1], [0, 1]⟩ : SeqPair).ordering 1 0 = Dir.right :=
  (c6_ordering_sign_table 2 ⟨[0, 1], [0, 1]⟩ ⟨by decide, by decide⟩ 1 0 (by decide)
    (by decide) (by decide)).2.2.2.2 (by decide) (by decide)

/-- C8: with a constraint matrix symmetric under `dir_invert` and a genuine
sequence pair, the driver's filter (which only reads entries below the
diagonal) accepts exactly when every off-diagonal entry is `none` or equal
to the induced direction of its own ordered pair. -/
theorem c8_compatibility_characterization (n : Nat) (M : List (List Dir)) (sp : SeqPair)
    (h : IsSeqPairOf n sp)
    (hsym : ∀ i, i < n → ∀ j, j < n →
      (M.getD i []).getD j Dir.none = dir_invert ((M.getD j []).getD i Dir.none)) :
    compatibleB n M sp = true ↔
      ∀ sa, sa < n → ∀ sb, sb < n → sa ≠ sb →
        ((M.getD sa []).getD sb Dir.none = Dir.none ∨
         (M.getD sa []).getD sb Dir.none = sp.ordering sa sb) := by
  rw [compatibleB_iff]
  constructor
  · intro hcomp sa hsa sb hsb hne
    rcases Nat.lt_or_gt_of_ne hne with hlt | hgt
    · rcases hcomp sb hsb sa hlt with h0 | h0
      · left
        rw [hsym sa hsa sb hsb, h0]
        rfl
      · right
        rw [hsym sa hsa sb hsb, h0, ordering_invert h hsb hsa (Ne.symm hne)]
    · exact hcomp sa hsa sb hgt
  · intro hall sa hsa sb hsb
    exact hall sa hsa sb (hsb.trans hsa) (Nat.ne_of_gt hsb)

/-- Witness for C8: the filter accepts the identity template against the
scenario matrix, via the characterization. -/
theorem c8_compatibility_characterization_witness :
    compatibleB 2 M5 (initSP 2) = true :=
  (c8_compatibility_characterization 2 M5 (initSP 2) ⟨by decide, by decide⟩
    (by decide)).mpr (by decide)

/-!
### Distance variables at the lexicographic minimum
-/

/-- The expression `u - v + Δ` of the first `distance_var` inequality for
pair `(sa, sb)`: the cross-axis difference of the two screens' corners
offset by half the size difference (truncating division), i.e. the
cross-axis center difference, with the argument order of each
`distance_var` call in the objective loop. -/
def centerOffset (n : Nat) (sizes : List Pair) (sp : SeqPair) (p : Nat → Int) (sa sb : Nat) : Int :=
  match sp.ordering sa sb with
  | Dir.left => p (v_screen_pos n sa 0) - p (v_screen_pos n sb 0) +
      Int.tdiv ((sizes.getD sa ⟨0, 0⟩).y - (sizes.getD sb ⟨0, 0⟩).y) 2
  | Dir.right => p (v_screen_pos n sb 0) - p (v_screen_pos n sa 0) +
      Int.tdiv ((sizes.getD sb ⟨0, 0⟩).y - (sizes.getD sa ⟨0, 0⟩).y) 2
  | Dir.above => p (v_screen_pos n sa 1) - p (v_screen_pos n sb 1) +
      Int.tdiv ((sizes.getD sa ⟨0, 0⟩).x - (sizes.getD sb ⟨0, 0⟩).x) 2
  | Dir.under => p (v_screen_pos n sb 1) - p (v_screen_pos n sa 1) +
      Int.tdiv ((sizes.getD sb ⟨0, 0⟩).x - (sizes.getD sa ⟨0, 0⟩).x) 2
  | Dir.none => 0

theorem distTerm_eq (n : Nat) (sp : SeqPair) (p : Nat → Int) (sa sb : Nat) :
    distTerm n sp p sa sb = p (v_max_var n (pairIdx sa sb)) := by
  unfold distTerm
  cases hD : sp.ordering sa sb
  · exact absurd hD (ordering_ne_none sp sa sb)
  all_goals rfl

theorem distPair_abs {p : Nat → Int} {dv ua : Nat} {A : Int} {vb : Nat} {B : Int}
    (h : distPair p dv ua A vb B) : |p ua - p vb + Int.tdiv (A - B) 2| ≤ p dv := by
  obtain ⟨h1, h2⟩ := h
  rw [show B - A = -(A - B) from by ring, Int.neg_tdiv] at h2
  rw [abs_le]
  constructor
  · linarith
  · exact h1

theorem distPair_of_eq_abs {p : Nat → Int} {dv ua : Nat} {A : Int} {vb : Nat} {B : Int}
    (h : p dv = |p ua - p vb + Int.tdiv (A - B) 2|) : distPair p dv ua A vb B := by
  unfold distPair
  rw [show B - A = -(A - B) from by ring, Int.neg_tdiv]
  constructor
  · rw [h]; exact le_abs_self _
  · rw [h]
    have := neg_abs_le (p ua - p vb + Int.tdiv (A - B) 2)
    linarith

theorem distConstraint_abs_le {n : Nat} {sizes : List Pair} {sp : SeqPair} {p : Nat → Int}
    {sa sb : Nat} (h : distConstraint n sizes sp p sa sb) :
    |centerOffset n sizes sp p sa sb| ≤ p (v_max_var n (pairIdx sa sb)) := by
  unfold distConstraint at h
  unfold centerOffset
  cases hD : sp.ordering sa sb <;> rw [hD] at h <;> simp only
  · exact absurd hD (ordering_ne_none sp sa sb)
  all_goals exact distPair_abs h

theorem distConstraint_of_abs {n : Nat} {sizes : List Pair} {sp : SeqPair} {p : Nat → Int}
    {sa sb : Nat}
    (h : p (v_max_var n (pairIdx sa sb)) = |centerOffset n sizes sp p sa sb|) :
    distConstraint n sizes sp p sa sb := by
  have hnn := ordering_ne_none sp sa sb
  unfold distConstraint
  unfold centerOffset at h
  cases hD : sp.ordering sa sb
  · exact absurd hD hnn
  all_goals rw [hD] at h
  all_goals exact distPair_of_eq_abs h

/-- Pointwise coordinate update, used to build comparison points against a
lexicographic minimum. -/
def setCoord (f : Nat → Int) (i : Nat) (v : Int) : Nat → Int :=
  fun j => if j = i then v else f j

theorem foldl_setCoord_ne {β : Type} (l : List β) (idx : β → Nat) (g : β → Int)
    (f : Nat → Int) (i : Nat) (h : ∀ x ∈ l, idx x ≠ i) :
    (l.foldl (fun acc x => setCoord acc (idx x) (g x)) f) i = f i := by
  induction l generalizing f with
  | nil => rfl
  | cons a l IH =>
      simp only [List.foldl_cons]
      rw [IH _ (fun x hx => h x (List.mem_cons_of_mem _ hx))]
      unfold setCoord
      rw [if_neg (fun he => h a (List.mem_cons_self a l) he.symm)]

theorem foldl_setCoord_eq {β : Type} (idx : β → Nat) (g : β → Int) :
    ∀ (l : List β) (f : Nat → Int) (x : β), x ∈ l →
      (∀ x1 ∈ l, ∀ x2 ∈ l, idx x1 = idx x2 → x1 = x2) →
      (l.foldl (fun acc y => setCoord acc (idx y) (g y)) f) (idx x) = g x := by
  intro l
  induction l with
  | nil => intro f x hmem _; cases hmem
  | cons a l IH =>
      intro f x hmem hinj
      simp only [List.foldl_cons]
      by_cases hx : x ∈ l
      · exact IH _ x hx (fun x1 h1 x2 h2 he =>
          hinj x1 (List.mem_cons_of_mem _ h1) x2 (List.mem_cons_of_mem _ h2) he)
      · have hxa : x = a := by
          rcases List.mem_cons.mp hmem with h1 | h1
          · exact h1
          · exact absurd h1 hx
        subst hxa
        have hne2 : ∀ y ∈ l, idx y ≠ idx x := by
          intro y hy heq
          have := hinj y (List.mem_cons_of_mem _ hy) x (List.mem_cons_self x l) heq
          exact hx (this ▸ hy)
        rw [foldl_setCoord_ne l idx g _ (idx x) hne2]
        unfold setCoord
        rw [if_pos rfl]

theorem mem_pairList {n sa sb : Nat} : (sa, sb) ∈ pairList n ↔ sa < n ∧ sb < sa := by
  simp only [pairList, List.mem_flatMap, List.mem_map, List.mem_range, Prod.mk.injEq]
  constructor
  · rintro ⟨a, ha, b, hb, rfl, rfl⟩
    exact ⟨ha, hb⟩
  · rintro ⟨ha, hb⟩
    exact ⟨sa, ha, sb, hb, rfl, rfl⟩

theorem pairList_idx_inj {n : Nat} :
    ∀ pr1 ∈ pairList n, ∀ pr2 ∈ pairList n,
      v_max_var n (pairIdx pr1.1 pr1.2) = v_max_var n (pairIdx pr2.1 pr2.2) → pr1 = pr2 := by
  rintro ⟨a1, b1⟩ h1 ⟨a2, b2⟩ h2 he
  obtain ⟨ha1, hb1⟩ := mem_pairList.mp h1
  obtain ⟨ha2, hb2⟩ := mem_pairList.mp h2
  have hidx : pairIdx a1 b1 = pairIdx a2 b2 := by
    unfold v_max_var at he
    dsimp only at he
    omega
  obtain ⟨hh1, hh2⟩ := pairIdx_inj hb1 hb2 hidx
  rw [hh1, hh2]

theorem sum_map_add {β : Type} (l : List β) (f g : β → Int) :
    (l.map (fun x => f x + g x)).sum = (l.map f).sum + (l.map g).sum := by
  induction l with
  | nil => rfl
  | cons a l IH =>
      simp only [List.map_cons, List.sum_cons, IH]
      ring

theorem sum_map_eq_of_le {β : Type} (l : List β) (f g : β → Int)
    (hle : ∀ x ∈ l, f x ≤ g x) (hsum : (l.map g).sum ≤ (l.map f).sum) :
    ∀ x ∈ l, g x = f x := by
  induction l with
  | nil => intro x hx; cases hx
  | cons a l IH =>
      simp only [List.map_cons, List.sum_cons] at hsum
      have hha : f a ≤ g a := hle a (List.mem_cons_self a l)
      have htail : (l.map f).sum ≤ (l.map g).sum :=
        List.sum_le_sum (fun x hx => hle x (List.mem_cons_of_mem _ hx))
      intro x hx
      rcases List.mem_cons.mp hx with h1 | h1
      · subst h1
        omega
      · exact IH (fun y hy => hle y (List.mem_cons_of_mem _ hy)) (by omega) x h1

theorem v_max_var_ne_small {n c i : Nat} (hi : i < v_max_var n 0) : v_max_var n c ≠ i := by
  unfold v_max_var at *
  omega

theorem v_vscreen_size_lt_base (n a : Nat) (ha : a < 2) : v_vscreen_size a < v_max_var n 0 := by
  simp only [v_vscreen_size, v_max_var, v_screen_pos, v_objective]
  omega

theorem v_screen_pos_ne_obj (n sc a : Nat) : v_screen_pos n sc a ≠ v_objective := by
  simp only [v_screen_pos, v_vscreen_size, v_objective]
  omega

theorem v_vscreen_size_ne_obj (a : Nat) : v_vscreen_size a ≠ v_objective := by
  simp only [v_vscreen_size, v_objective]
  omega

theorem gapTerm_congr {n : Nat} {sp : SeqPair} {p p' : Nat → Int} {sa sb : Nat}
    (hag : ∀ sc a, sc < n → a < 2 → p' (v_screen_pos n sc a) = p (v_screen_pos n sc a))
    (hsa : sa < n) (hsb : sb < n) :
    gapTerm n sp p' sa sb = gapTerm n sp p sa sb := by
  unfold gapTerm
  cases sp.ordering sa sb
  · rfl
  · rw [hag sb 1 hsb (by omega), hag sa 1 hsa (by omega)]
  · rw [hag sb 1 hsb (by omega), hag sa 1 hsa (by omega)]
  · rw [hag sb 0 hsb (by omega), hag sa 0 hsa (by omega)]
  · rw [hag sb 0 hsb (by omega), hag sa 0 hsa (by omega)]

theorem centerOffset_congr {n : Nat} {sizes : List Pair} {sp : SeqPair} {p p' : Nat → Int}
    {sa sb : Nat}
    (hag : ∀ sc a, sc < n → a < 2 → p' (v_screen_pos n sc a) = p (v_screen_pos n sc a))
    (hsa : sa < n) (hsb : sb < n) :
    centerOffset n sizes sp p' sa sb = centerOffset n sizes sp p sa sb := by
  unfold centerOffset
  cases sp.ordering sa sb
  · rfl
  · rw [hag sb 0 hsb (by omega), hag sa 0 hsa (by omega)]
  · rw [hag sb 0 hsb (by omega), hag sa 0 hsa (by omega)]
  · rw [hag sb 1 hsb (by omega), hag sa 1 hsa (by omega)]
  · rw [hag sb 1 hsb (by omega), hag sa 1 hsa (by omega)]

theorem orderingConstraint_congr {n : Nat} {sizes : List Pair} {sp : SeqPair}
    {p p' : Nat → Int} {sa sb : Nat}
    (hag : ∀ sc a, sc < n → a < 2 → p' (v_screen_pos n sc a) = p (v_screen_pos n sc a))
    (hsa : sa < n) (hsb : sb < n)
    (h : orderingConstraint n sizes sp p sa sb) :
    orderingConstraint n sizes sp p' sa sb := by
  unfold orderingConstraint at h ⊢
  cases hD : sp.ordering sa sb <;> rw [hD] at h
  · exact h
  · rw [hag sb 1 hsb (by omega), hag sa 1 hsa (by omega)]; exact h
  · rw [hag sb 1 hsb (by omega), hag sa 1 hsa (by omega)]; exact h
  · rw [hag sb 0 hsb (by omega), hag sa 0 hsa (by omega)]; exact h
  · rw [hag sb 0 hsb (by omega), hag sa 0 hsa (by omega)]; exact h

/-- Comparison point against a candidate solution: keep all virtual-screen
and position coordinates, force every auxiliary distance variable down to
the absolute cross-axis center difference, and rebind the objective
accordingly. -/
def distComparison (n : Nat) (sizes : List Pair) (sp : SeqPair) (p : Nat → Int) : Nat → Int :=
  setCoord
    ((pairList n).foldl
      (fun acc pr => setCoord acc (v_max_var n (pairIdx pr.1 pr.2))
        |centerOffset n sizes sp p pr.1 pr.2|) p)
    v_objective
    (((pairList n).map (fun pr => gapTerm n sp p pr.1 pr.2 +
        |centerOffset n sizes sp p pr.1 pr.2|)).sum)

theorem distComparison_small {n : Nat} {sizes : List Pair} {sp : SeqPair} {p : Nat → Int}
    {i : Nat} (hi : i < v_max_var n 0) (hobj : i ≠ v_objective) :
    distComparison n sizes sp p i = p i := by
  unfold distComparison setCoord
  rw [if_neg hobj]
  exact foldl_setCoord_ne (pairList n) (fun pr => v_max_var n (pairIdx pr.1 pr.2)) _ p i
    (fun pr _ => v_max_var_ne_small hi)

theorem distComparison_obj {n : Nat} {sizes : List Pair} {sp : SeqPair} {p : Nat → Int} :
    distComparison n sizes sp p v_objective =
      ((pairList n).map (fun pr => gapTerm n sp p pr.1 pr.2 +
        |centerOffset n sizes sp p pr.1 pr.2|)).sum := by
  unfold distComparison setCoord
  rw [if_pos rfl]

theorem distComparison_dist {n : Nat} {sizes : List Pair} {sp : SeqPair} {p : Nat → Int}
    {pr : Nat × Nat} (hmem : pr ∈ pairList n) :
    distComparison n sizes sp p (v_max_var n (pairIdx pr.1 pr.2)) =
      |centerOffset n sizes sp p pr.1 pr.2| := by
  unfold distComparison setCoord
  rw [if_neg (by
    have : v_objective < v_max_var n 0 := by
      simp only [v_objective, v_max_var, v_screen_pos, v_vscreen_size]
      omega
    exact v_max_var_ne_small this)]
  exact foldl_setCoord_eq (fun pr => v_max_var n (pairIdx pr.1 pr.2))
    (fun pr => |centerOffset n sizes sp p pr.1 pr.2|) (pairList n) p pr hmem pairList_idx_inj

/-- At any lexicographically minimal feasible point, every auxiliary
distance variable equals the absolute cross-axis center difference of its
pair: minimality of the objective coordinate leaves no slack. -/
theorem lexmin_dist_eq {n : Nat} {vmin vmax : Pair} {sizes : List Pair} {sp : SeqPair}
    {p : Nat → Int} (hlex : IsLexmin (v_nb n) (Feasible n vmin vmax sizes sp) p) :
    ∀ pr ∈ pairList n,
      p (v_max_var n (pairIdx pr.1 pr.2)) = |centerOffset n sizes sp p pr.1 pr.2| := by
  obtain ⟨hfeas, hmin⟩ := hlex
  obtain ⟨hbx, hby, hin, hord, hdist, heq⟩ := hfeas
  have hagPos : ∀ sc a, sc < n → a < 2 →
      distComparison n sizes sp p (v_screen_pos n sc a) = p (v_screen_pos n sc a) := by
    intro sc a hsc ha
    exact distComparison_small (v_screen_pos_lt_v_max_var n sc a 0 hsc ha)
      (v_screen_pos_ne_obj n sc a)
  have hagVS : ∀ a, a < 2 →
      distComparison n sizes sp p (v_vscreen_size a) = p (v_vscreen_size a) := by
    intro a ha
    exact distComparison_small (v_vscreen_size_lt_base n a ha) (v_vscreen_size_ne_obj a)
  have hfeas2 : Feasible n vmin vmax sizes sp (distComparison n sizes sp p) := by
    refine ⟨?_, ?_, ?_, ?_, ?_, ?_⟩
    · rw [hagVS 1 (by omega)]
      exact hbx
    · rw [hagVS 0 (by omega)]
      exact hby
    · intro sc hsc
      rw [hagPos sc 1 hsc (by omega), hagPos sc 0 hsc (by omega), hagVS 1 (by omega),
        hagVS 0 (by omega)]
      exact hin sc hsc
    · intro sa hsa sb hsb
      exact orderingConstraint_congr hagPos hsa (hsb.trans hsa) (hord sa hsa sb hsb)
    · intro sa hsa sb hsb
      apply distConstraint_of_abs
      rw [centerOffset_congr hagPos hsa (hsb.trans hsa)]
      exact distComparison_dist (mem_pairList.mpr ⟨hsa, hsb⟩)
    · rw [distComparison_obj]
      unfold objectiveSum
      refine congrArg _ (List.map_congr_left ?_).symm
      intro pr hmem
      obtain ⟨hpa, hpb⟩ := mem_pairList.mp (by
        have : (pr.1, pr.2) = pr := rfl
        rw [this]
        exact hmem)
      rw [gapTerm_congr hagPos hpa (hpb.trans hpa), distTerm_eq,
        distComparison_dist hmem]
  have hle0 : p v_objective ≤ distComparison n sizes sp p v_objective := by
    refine hmin (distComparison n sizes sp p) hfeas2 v_objective (v_objective_lt_v_nb n) ?_
    intro j hj
    simp only [v_objective] at hj
    omega
  rw [distComparison_obj] at hle0
  have hptotal : p v_objective =
      ((pairList n).map (fun pr => gapTerm n sp p pr.1 pr.2)).sum +
      ((pairList n).map (fun pr => p (v_max_var n (pairIdx pr.1 pr.2)))).sum := by
    rw [heq]
    unfold objectiveSum
    rw [← sum_map_add]
    refine congrArg _ (List.map_congr_left ?_)
    intro pr _
    rw [distTerm_eq]
  rw [sum_map_add] at hle0
  have hsum : ((pairList n).map (fun pr => p (v_max_var n (pairIdx pr.1 pr.2)))).sum ≤
      ((pairList n).map (fun pr => |centerOffset n sizes sp p pr.1 pr.2|)).sum := by
    omega
  have hlower : ∀ pr ∈ pairList n,
      |centerOffset n sizes sp p pr.1 pr.2| ≤ p (v_max_var n (pairIdx pr.1 pr.2)) := by
    intro pr hmem
    obtain ⟨hpa, hpb⟩ := mem_pairList.mp (by
      have : (pr.1, pr.2) = pr := rfl
      rw [this]
      exact hmem)
    exact distConstraint_abs_le (hdist pr.1 hpa pr.2 hpb)
  exact sum_map_eq_of_le (pairList n) (fun pr => |centerOffset n sizes sp p pr.1 pr.2|)
    (fun pr => p (v_max_var n (pairIdx pr.1 pr.2))) hlower hsum

/-- C9: the two `distance_var` inequalities, built with offsets
`(sa_size - sb_size)/2` and `(sb_size - sa_size)/2` under truncating
division, realize the spec's pair `u - v + Δ ≤ D` and `v - u - Δ ≤ D`
exactly (also for negative or odd size differences); and in every solution
point returned by the packer (a lexicographic minimum of its polyhedron),
each auxiliary distance variable equals exactly the absolute cross-axis
center difference `|u - v + Δ|` of its pair. -/
theorem c9_distance_vars :
    (∀ (p : Nat → Int) (dv ua vb : Nat) (A B : Int),
        distPair p dv ua A vb B ↔
          (p ua - p vb + Int.tdiv (A - B) 2 ≤ p dv ∧
           p vb - p ua - Int.tdiv (A - B) 2 ≤ p dv)) ∧
    (∀ (n : Nat) (vmin vmax : Pair) (sizes : List Pair) (sp : SeqPair) (p : Nat → Int),
        IsLexmin (v_nb n) (Feasible n vmin vmax sizes sp) p →
        ∀ sa, sa < n → ∀ sb, sb < sa →
          p (v_max_var n (pairIdx sa sb)) = |centerOffset n sizes sp p sa sb|) := by
  constructor
  · intro p dv ua vb A B
    unfold distPair
    rw [show B - A = -(A - B) from by ring, Int.neg_tdiv]
    constructor
    · rintro ⟨h1, h2⟩
      exact ⟨h1, by linarith⟩
    · rintro ⟨h1, h2⟩
      exact ⟨h1, by linarith⟩
  · intro n vmin vmax sizes sp p hlex sa hsa sb hsb
    exact lexmin_dist_eq hlex (sa, sb) (mem_pairList.mpr ⟨hsa, hsb⟩)

/-- Witness for C9 on the two-screen scenario: the single distance variable
of the recorded solution equals the absolute center difference (both are
zero: the second screen is exactly centered). -/
theorem c9_distance_vars_witness :
    pStar5 (v_max_var 2 (pairIdx 1 0)) = |centerOffset 2 sizes5 (initSP 2) pStar5 1 0| :=
  c9_distance_vars.2 2 ⟨0, 0⟩ ⟨4000, 2000⟩ sizes5 (initSP 2) pStar5 pStar5_lexmin 1
    (by decide) 0 (by decide)

/-!
### C++ representability bounds the objective below the sentinel

The source stores every input coordinate in a C++ `int` (`pair::x`,
`pair::y` in `screen_layout.h`) and accumulates the objective in a `long`;
the sentinel is `numeric_limits<long>::max() = 2^63 - 1`.  For
`int`-representable inputs with at most `2^15` screens, the minimal
objective of every template is below the sentinel, so the record guard's
tie-break against the sentinel can never fire.
-/

theorem abs_tdiv_two_le (a : Int) : |Int.tdiv a 2| ≤ |a| := by
  rcases le_or_lt 0 a with h | h
  · rw [Int.tdiv_eq_ediv h (by norm_num),
      abs_of_nonneg h, abs_of_nonneg (Int.ediv_nonneg h (by norm_num))]
    omega
  · have h2 : (0 : Int) ≤ -a := by omega
    rw [show a = -(-a) from by ring, Int.neg_tdiv, abs_neg, abs_neg,
      Int.tdiv_eq_ediv h2 (by norm_num),
      abs_of_nonneg h2, abs_of_nonneg (Int.ediv_nonneg h2 (by norm_num))]
    omega

theorem getD_mem_of_lt {l : List Pair} {i : Nat} (h : i < l.length) :
    l.getD i ⟨0, 0⟩ ∈ l := by
  rw [List.getD_eq_getElem l ⟨0, 0⟩ h]
  exact List.getElem_mem h

/-- One axis pair of bounds: a constraint gap plus an absolute cross-axis
center difference stays within `3 * B` when the virtual screen and all
sizes fit in `B`. -/
theorem gap_dist_bound {B W H xa wa xb wb ya ha yb hb : Int}
    (hW : W ≤ B) (hH : H ≤ B)
    (hxa : 0 ≤ xa) (hxaw : xa + wa ≤ W) (hwa : 0 < wa)
    (hxb : 0 ≤ xb) (hxbw : xb + wb ≤ W) (hwb : 0 < wb)
    (hya : 0 ≤ ya) (hyah : ya + ha ≤ H) (hha : 0 < ha) (hhaB : ha ≤ B)
    (hyb : 0 ≤ yb) (hybh : yb + hb ≤ H) (hhb : 0 < hb) (hhbB : hb ≤ B) :
    (xb - xa) + |ya - yb + Int.tdiv (ha - hb) 2| ≤ 3 * B := by
  have hB1 : 1 ≤ B := by omega
  have htd : |Int.tdiv (ha - hb) 2| ≤ |ha - hb| := abs_tdiv_two_le _
  have h1 : |ha - hb| ≤ B := abs_le.mpr ⟨by omega, by omega⟩
  have h2 : |ya - yb| ≤ B := abs_le.mpr ⟨by omega, by omega⟩
  have h3 : |ya - yb + Int.tdiv (ha - hb) 2| ≤
      |ya - yb| + |Int.tdiv (ha - hb) 2| := abs_add _ _
  linarith

/-- At a lexicographically minimal feasible point of an `int`-bounded
instance, each pair's objective contribution (gap plus distance variable)
is at most `3 * B`. -/
theorem lexmin_term_bound {vmin vmax : Pair} {sizes : List Pair} {sp : SeqPair}
    {p : Nat → Int} {B : Int}
    (hlex : IsLexmin (v_nb sizes.length) (Feasible sizes.length vmin vmax sizes sp) p)
    (hsz : ∀ s ∈ sizes, 0 < s.x ∧ s.x ≤ B ∧ 0 < s.y ∧ s.y ≤ B)
    (hvx : vmax.x ≤ B) (hvy : vmax.y ≤ B)
    {sa sb : Nat} (hsa : sa < sizes.length) (hsb : sb < sa) :
    gapTerm sizes.length sp p sa sb + distTerm sizes.length sp p sa sb ≤ 3 * B := by
  obtain ⟨⟨hW1, hW2⟩, ⟨hH1, hH2⟩, hin, hord, hdist, hobj⟩ := hlex.1
  have hdisteq := lexmin_dist_eq hlex (sa, sb) (mem_pairList.mpr ⟨hsa, hsb⟩)
  obtain ⟨hwa, hwaB, hha, hhaB⟩ := hsz _ (getD_mem_of_lt hsa)
  obtain ⟨hwb, hwbB, hhb, hhbB⟩ := hsz _ (getD_mem_of_lt (hsb.trans hsa))
  obtain ⟨⟨hxa0, hxaW⟩, hya0, hyaH⟩ := hin sa hsa
  obtain ⟨⟨hxb0, hxbW⟩, hyb0, hybH⟩ := hin sb (hsb.trans hsa)
  have hWB : p (v_vscreen_size 1) ≤ B := le_trans hW2 hvx
  have hHB : p (v_vscreen_size 0) ≤ B := le_trans hH2 hvy
  rw [distTerm_eq, hdisteq]
  unfold gapTerm centerOffset
  cases hD : sp.ordering sa sb <;> dsimp only
  · exact absurd hD (ordering_ne_none sp sa sb)
  · exact gap_dist_bound hWB hHB hxa0 hxaW hwa hxb0 hxbW hwb
      hya0 hyaH hha hhaB hyb0 hybH hhb hhbB
  · exact gap_dist_bound hWB hHB hxb0 hxbW hwb hxa0 hxaW hwa
      hyb0 hybH hhb hhbB hya0 hyaH hha hhaB
  · exact gap_dist_bound hHB hWB hya0 hyaH hha hyb0 hybH hhb
      hxa0 hxaW hwa hwaB hxb0 hxbW hwb hwbB
  · exact gap_dist_bound hHB hWB hyb0 hybH hhb hya0 hyaH hha
      hxb0 hxbW hwb hwbB hxa0 hxaW hwa hwaB

theorem pairList_length (n : Nat) : (pairList n).length = n * (n - 1) / 2 := by
  induction n with
  | zero => rfl
  | succ m IH =>
      show ((List.range (m + 1)).flatMap
        (fun sa => (List.range sa).map (fun sb => (sa, sb)))).length = _
      rw [List.range_succ, List.flatMap_append, List.length_append]
      have h1 : ((List.range m).flatMap
          (fun sa => (List.range sa).map (fun sb => (sa, sb)))).length =
          m * (m - 1) / 2 := IH
      rw [h1]
      simp only [List.flatMap_cons, List.flatMap_nil, List.append_nil, List.length_map,
        List.length_range]
      rw [Nat.add_sub_cancel, triangle_succ]

theorem sum_map_le_const {β : Type} (l : List β) (f : β → Int) (c : Int)
    (h : ∀ x ∈ l, f x ≤ c) : (l.map f).sum ≤ (l.length : Int) * c := by
  induction l with
  | nil => simp
  | cons a l IH =>
      simp only [List.map_cons, List.sum_cons, List.length_cons]
      have h1 := h a (List.mem_cons_self a l)
      have h2 := IH (fun x hx => h x (List.mem_cons_of_mem _ hx))
      push_cast
      linarith

/-- For `int`-representable inputs with at most `2^15` screens, the
objective coordinate of every lexicographically minimal feasible point is
strictly below the driver's sentinel `init = 2^63 - 1`. -/
theorem lexmin_objective_lt_init {vmin vmax : Pair} {sizes : List Pair} {sp : SeqPair}
    {p : Nat → Int}
    (hlex : IsLexmin (v_nb sizes.length) (Feasible sizes.length vmin vmax sizes sp) p)
    (hsz : ∀ s ∈ sizes, 0 < s.x ∧ s.x ≤ 2 ^ 31 - 1 ∧ 0 < s.y ∧ s.y ≤ 2 ^ 31 - 1)
    (hvx : vmax.x ≤ 2 ^ 31 - 1) (hvy : vmax.y ≤ 2 ^ 31 - 1)
    (hcount : sizes.length ≤ 2 ^ 15) :
    p v_objective < init := by
  have hobj : p v_objective = objectiveSum sizes.length sp p := hlex.1.2.2.2.2.2
  have hterm : ∀ pr ∈ pairList sizes.length,
      gapTerm sizes.length sp p pr.1 pr.2 + distTerm sizes.length sp p pr.1 pr.2 ≤
        3 * (2 ^ 31 - 1) := by
    intro pr hmem
    obtain ⟨hpa, hpb⟩ := mem_pairList.mp (show (pr.1, pr.2) ∈ pairList _ from hmem)
    exact lexmin_term_bound hlex hsz hvx hvy hpa hpb
  have hsum : ((pairList sizes.length).map (fun q =>
      gapTerm sizes.length sp p q.1 q.2 + distTerm sizes.length sp p q.1 q.2)).sum ≤
      ((pairList sizes.length).length : Int) * (3 * (2 ^ 31 - 1)) :=
    sum_map_le_const _ _ _ hterm
  have hlen : (pairList sizes.length).length ≤ 2 ^ 29 := by
    rw [pairList_length]
    have h1 : sizes.length * (sizes.length - 1) ≤ 2 ^ 15 * 2 ^ 15 :=
      Nat.mul_le_mul hcount (le_trans (Nat.sub_le _ _) hcount)
    norm_num at h1
    generalize sizes.length * (sizes.length - 1) = P at h1 ⊢
    omega
  have hlenI : ((pairList sizes.length).length : Int) ≤ 2 ^ 29 := by exact_mod_cast hlen
  have h2 : ((pairList sizes.length).length : Int) * (3 * (2 ^ 31 - 1)) ≤
      2 ^ 29 * (3 * (2 ^ 31 - 1)) :=
    mul_le_mul_of_nonneg_right hlenI (by norm_num)
  rw [hobj]
  unfold objectiveSum init
  calc ((pairList sizes.length).map (fun q =>
          gapTerm sizes.length sp p q.1 q.2 + distTerm sizes.length sp p q.1 q.2)).sum ≤
        ((pairList sizes.length).length : Int) * (3 * (2 ^ 31 - 1)) := hsum
    _ ≤ 2 ^ 29 * (3 * (2 ^ 31 - 1)) := h2
    _ < 2 ^ 63 - 1 := by norm_num

/-- C10: infeasibility is atomic with respect to the output parameters —
under the §6 preconditions, for inputs representable in the source's types
(`int` coordinates, at most `2^15` screens, which keeps every exact
objective below the `long` sentinel `init = 2^63 - 1`), whenever
`compute_screen_layout` returns `false` the `vscreen_size` and
`screen_positions` reference arguments hold exactly the values the caller
passed in: they are written only when a solution is recorded. -/
theorem c10_failure_leaves_outputs (vmin vmax : Pair) (sizes : List Pair)
    (M : List (List Dir)) (S : SeqPair → Option (Nat → Int)) (vss0 vss : Pair)
    (pos0 pos : List Pair) (w : Option SeqPair)
    (hpre : Preconds vmin vmax sizes M)
    (hS : SolverOK sizes.length vmin vmax sizes M S)
    (hsz : ∀ s ∈ sizes, s.x ≤ 2 ^ 31 - 1 ∧ s.y ≤ 2 ^ 31 - 1)
    (hvx : vmax.x ≤ 2 ^ 31 - 1) (hvy : vmax.y ≤ 2 ^ 31 - 1)
    (hcount : sizes.length ≤ 2 ^ 15)
    (hrun : compute_screen_layout vmin vmax sizes M S vss0 pos0 = (false, vss, pos, w)) :
    vss = vss0 ∧ pos = pos0 := by
  have hsz' : ∀ s ∈ sizes, 0 < s.x ∧ s.x ≤ 2 ^ 31 - 1 ∧ 0 < s.y ∧ s.y ≤ 2 ^ 31 - 1 := by
    intro s hs
    obtain ⟨h1, h2⟩ := hpre.2.1 s hs
    obtain ⟨h3, h4⟩ := hsz s hs
    exact ⟨h1, h3, h2, h4⟩
  have hobj : ∀ sp ∈ driverTemplates sizes.length, compatibleB sizes.length M sp = true →
      ∀ p, S sp = Option.some p → p v_objective ≠ init := by
    intro sp hmem hcomp p hp
    have hlex := hS sp hmem hcomp
    rw [hp] at hlex
    exact ne_of_lt (lexmin_objective_lt_init hlex hsz' hvx hvy hcount)
  have hinv := foldl_invariant (driverStep sizes.length M S)
    (fun st => st.last_objective = init → st = ⟨init, vss0, pos0, Option.none⟩)
    (fun sp => sp ∈ driverTemplates sizes.length)
    (fun st sp hmem hst => by
      rcases driverStep_cases sizes.length M S st sp with heq | ⟨p, hcp, hSome, heq, _⟩
      · rw [heq]; exact hst
      · rw [heq]
        intro hinit
        exact absurd hinit (hobj sp hmem hcp p hSome))
    (driverTemplates sizes.length) (fun a ha => ha)
    ⟨init, vss0, pos0, Option.none⟩ (fun _ => rfl)
  unfold compute_screen_layout at hrun
  simp only [Prod.mk.injEq] at hrun
  obtain ⟨h1, h2, h3, h4⟩ := hrun
  have hinit : ((driverTemplates sizes.length).foldl (driverStep sizes.length M S)
      ⟨init, vss0, pos0, Option.none⟩).last_objective = init := by
    by_contra hne
    rw [bne_eq_false_iff_eq] at h1
    · exact hne h1
  have hfin := hinv hinit
  rw [hfin] at h2 h3
  exact ⟨h2.symm, h3.symm⟩

/-- Witness for C10 on the infeasible single-screen instance: the run
fails and both output parameters keep the caller's values. -/
theorem c10_failure_leaves_outputs_witness :
    (⟨5, 5⟩ : Pair) = ⟨5, 5⟩ ∧ ([⟨1, 1⟩] : List Pair) = [⟨1, 1⟩] :=
  c10_failure_leaves_outputs ⟨0, 0⟩ ⟨1, 1⟩ [⟨2, 2⟩] [[Dir.none]] SNone ⟨5, 5⟩ ⟨5, 5⟩
    [⟨1, 1⟩] [⟨1, 1⟩] Option.none (by decide) SNone_ok (by decide) (by decide)
    (by decide) (by decide) (by decide)

/-!
### Round trip: re-running with the winning template's directions
-/

theorem pair_lt_irrefl (v : Pair) : Pair.lt v v = false := by
  simp [Pair.lt]

theorem inducedMatrix_getD {n : Nat} {sp : SeqPair} {sa sb : Nat} (hsa : sa < n) (hsb : sb < n) :
    ((inducedMatrix n sp).getD sa []).getD sb Dir.none =
      if sa = sb then Dir.none else sp.ordering sa sb := by
  have hrow : (inducedMatrix n sp).getD sa [] =
      (List.range n).map (fun sb => if sa = sb then Dir.none else sp.ordering sa sb) := by
    unfold inducedMatrix
    rw [List.getD_eq_getElem _ _ (by simpa using hsa)]
    simp only [List.getElem_map, List.getElem_range]
  rw [hrow, List.getD_eq_getElem _ _ (by simpa using hsb)]
  simp only [List.getElem_map, List.getElem_range]

theorem compatibleB_induced_iff {n : Nat} {t sp : SeqPair} :
    compatibleB n (inducedMatrix n t) sp = true ↔
      ∀ sa, sa < n → ∀ sb, sb < sa → sp.ordering sa sb = t.ordering sa sb := by
  rw [compatibleB_iff]
  constructor
  · intro h sa hsa sb hsb
    rcases h sa hsa sb hsb with h0 | h0 <;>
      rw [inducedMatrix_getD hsa (hsb.trans hsa), if_neg (Nat.ne_of_gt hsb)] at h0
    · exact absurd h0 (ordering_ne_none t sa sb)
    · exact h0.symm
  · intro h sa hsa sb hsb
    right
    rw [inducedMatrix_getD hsa (hsb.trans hsa), if_neg (Nat.ne_of_gt hsb)]
    exact (h sa hsa sb hsb).symm

theorem orderingConstraint_template {n : Nat} {sizes : List Pair} {p : Nat → Int}
    {sa sb : Nat} {sp t : SeqPair} (h : sp.ordering sa sb = t.ordering sa sb) :
    orderingConstraint n sizes sp p sa sb ↔ orderingConstraint n sizes t p sa sb := by
  unfold orderingConstraint
  rw [h]

theorem distConstraint_template {n : Nat} {sizes : List Pair} {p : Nat → Int}
    {sa sb : Nat} {sp t : SeqPair} (h : sp.ordering sa sb = t.ordering sa sb) :
    distConstraint n sizes sp p sa sb ↔ distConstraint n sizes t p sa sb := by
  unfold distConstraint
  rw [h]

theorem gapTerm_template {n : Nat} {p : Nat → Int} {sa sb : Nat} {sp t : SeqPair}
    (h : sp.ordering sa sb = t.ordering sa sb) :
    gapTerm n sp p sa sb = gapTerm n t p sa sb := by
  unfold gapTerm
  rw [h]

theorem distTerm_template {n : Nat} {p : Nat → Int} {sa sb : Nat} {sp t : SeqPair}
    (h : sp.ordering sa sb = t.ordering sa sb) :
    distTerm n sp p sa sb = distTerm n t p sa sb := by
  unfold distTerm
  rw [h]

/-- The packer polyhedron depends on the template only through the induced
directions of the pairs `(sa, sb)` with `sb < sa`. -/
theorem feasible_template_mono {n : Nat} {vmin vmax : Pair} {sizes : List Pair}
    {sp t : SeqPair}
    (hord : ∀ sa, sa < n → ∀ sb, sb < sa → sp.ordering sa sb = t.ordering sa sb)
    (p : Nat → Int) (hf : Feasible n vmin vmax sizes sp p) :
    Feasible n vmin vmax sizes t p := by
  obtain ⟨h1, h2, h3, h4, h5, h6⟩ := hf
  refine ⟨h1, h2, h3, ?_, ?_, ?_⟩
  · intro sa hsa sb hsb
    exact (orderingConstraint_template (hord sa hsa sb hsb)).mp (h4 sa hsa sb hsb)
  · intro sa hsa sb hsb
    exact (distConstraint_template (hord sa hsa sb hsb)).mp (h5 sa hsa sb hsb)
  · rw [h6]
    unfold objectiveSum
    refine congrArg _ (List.map_congr_left ?_)
    intro pr hmem
    obtain ⟨hpa, hpb⟩ := mem_pairList.mp (show (pr.1, pr.2) ∈ pairList n from hmem)
    rw [gapTerm_template (hord pr.1 hpa pr.2 hpb), distTerm_template (hord pr.1 hpa pr.2 hpb)]

theorem isLexmin_congr {k : Nat} {P Q : (Nat → Int) → Prop} (h : ∀ x, P x ↔ Q x)
    {p : Nat → Int} (hp : IsLexmin k P p) : IsLexmin k Q p :=
  ⟨(h p).mp hp.1, fun q hq => hp.2 q ((h q).mpr hq)⟩

theorem lexmin_extract_eq {n : Nat} {P : (Nat → Int) → Prop} {p q : Nat → Int}
    (hp : IsLexmin (v_nb n) P p) (hq : IsLexmin (v_nb n) P q) :
    q v_objective = p v_objective ∧ solutionVSize q = solutionVSize p ∧
      solutionPositions n q = solutionPositions n p := by
  have hagree := isLexmin_agree hq hp
  refine ⟨hagree v_objective (v_objective_lt_v_nb n), ?_, ?_⟩
  · unfold solutionVSize
    rw [hagree (v_vscreen_size 1) (v_vscreen_size_lt_v_nb n 1 (by omega)),
      hagree (v_vscreen_size 0) (v_vscreen_size_lt_v_nb n 0 (by omega))]
  · unfold solutionPositions
    refine List.map_congr_left ?_
    intro sc hsc
    rw [List.mem_range] at hsc
    rw [hagree (v_screen_pos n sc 1) (v_screen_pos_lt_v_nb n sc 1 hsc (by omega)),
      hagree (v_screen_pos n sc 0) (v_screen_pos_lt_v_nb n sc 0 hsc (by omega))]

theorem lastObj_le_init_final (n : Nat) (M : List (List Dir))
    (S : SeqPair → Option (Nat → Int)) (vss0 : Pair) (pos0 : List Pair) :
    ((driverTemplates n).foldl (driverStep n M S)
      ⟨init, vss0, pos0, Option.none⟩).last_objective ≤ init := by
  refine foldl_invariant (driverStep n M S) (fun st => st.last_objective ≤ init)
    (fun _ => True) ?_ (driverTemplates n) (fun _ _ => trivial) _ le_rfl
  intro st sp _ hle
  rcases driverStep_cases n M S st sp with heq | ⟨p, _, _, heq, hcond⟩
  · rw [heq]; exact hle
  · rw [heq]
    show p v_objective ≤ init
    rw [Bool.or_eq_true] at hcond
    rcases hcond with hc | hc
    · have := of_decide_eq_true hc
      omega
    · rw [Bool.and_eq_true] at hc
      have := beq_iff_eq.mp hc.1
      omega

/-- In a run where every compatible template records the same data, a state
already holding that data never changes. -/
theorem fold_const_absorb {n : Nat} {M : List (List Dir)} {S : SeqPair → Option (Nat → Int)}
    {o : Int} {vs : Pair} {ps : List Pair}
    (hsame : ∀ sp ∈ driverTemplates n, compatibleB n M sp = true →
      ∃ q, S sp = Option.some q ∧ q v_objective = o ∧ solutionVSize q = vs ∧
        solutionPositions n q = ps) :
    ∀ l : List SeqPair, (∀ sp ∈ l, sp ∈ driverTemplates n) →
      ∀ st : DriverState, st.last_objective = o → st.vscreen_size = vs →
        st.screen_positions = ps →
        (l.foldl (driverStep n M S) st).last_objective = o ∧
        (l.foldl (driverStep n M S) st).vscreen_size = vs ∧
        (l.foldl (driverStep n M S) st).screen_positions = ps := by
  intro l
  induction l with
  | nil => intro _ st h1 h2 h3; exact ⟨h1, h2, h3⟩
  | cons a l IH =>
      intro hsub st h1 h2 h3
      simp only [List.foldl_cons]
      have hstep : driverStep n M S st a = st := by
        cases hca : compatibleB n M a with
        | false => exact driverStep_incompat hca
        | true =>
            obtain ⟨q, hq, hq0, hqv, hqp⟩ := hsame a (hsub a (List.mem_cons_self a l)) hca
            refine driverStep_norecord hca hq ?_
            rw [Bool.or_eq_false_iff]
            constructor
            · rw [decide_eq_false_iff_not, hq0, h1]
              exact lt_irrefl o
            · rw [Bool.and_eq_false_iff]
              right
              rw [hqv, h2]
              exact pair_lt_irrefl vs
      rw [hstep]
      exact IH (fun x hx => hsub x (List.mem_cons_of_mem a hx)) st h1 h2 h3

/-- In a run where every compatible template records the same data with an
objective beating the sentinel, the final state holds exactly that data as
soon as at least one enumerated template is compatible. -/
theorem fold_const_reach {n : Nat} {M : List (List Dir)} {S : SeqPair → Option (Nat → Int)}
    {o : Int} {vs : Pair} {ps : List Pair} (ho : o < init)
    (hsame : ∀ sp ∈ driverTemplates n, compatibleB n M sp = true →
      ∃ q, S sp = Option.some q ∧ q v_objective = o ∧ solutionVSize q = vs ∧
        solutionPositions n q = ps) :
    ∀ l : List SeqPair, (∀ sp ∈ l, sp ∈ driverTemplates n) →
      ∀ st : DriverState, st.last_objective = init →
        (∃ sp ∈ l, compatibleB n M sp = true) →
        (l.foldl (driverStep n M S) st).last_objective = o ∧
        (l.foldl (driverStep n M S) st).vscreen_size = vs ∧
        (l.foldl (driverStep n M S) st).screen_positions = ps := by
  intro l
  induction l with
  | nil =>
      intro _ st _ hex
      obtain ⟨sp, hsp, _⟩ := hex
      cases hsp
  | cons a l IH =>
      intro hsub st hinit hex
      simp only [List.foldl_cons]
      cases hca : compatibleB n M a with
      | true =>
          obtain ⟨q, hq, hq0, hqv, hqp⟩ := hsame a (hsub a (List.mem_cons_self a l)) hca
          have hrec : driverStep n M S st a =
              ⟨q v_objective, solutionVSize q, solutionPositions n q, Option.some a⟩ := by
            refine driverStep_record hca hq ?_
            rw [Bool.or_eq_true]
            left
            rw [decide_eq_true_eq, hq0, hinit]
            exact ho
          rw [hrec]
          exact fold_const_absorb hsame l (fun x hx => hsub x (List.mem_cons_of_mem a hx))
            _ hq0 hqv hqp
      | false =>
          rw [driverStep_incompat hca]
          refine IH (fun x hx => hsub x (List.mem_cons_of_mem a hx)) st hinit ?_
          obtain ⟨sp, hsp, hcsp⟩ := hex
          rcases List.mem_cons.mp hsp with h | h
          · rw [h] at hcsp
            rw [hcsp] at hca
            cases hca
          · exact ⟨sp, h, hcsp⟩

/-- C4: if a successful run on constraint matrix `M` records its final
solution from template `t`, re-running on the same `vmin`, `vmax`, `sizes`
with the constraint matrix replaced by `t`'s full induced matrix (every
pair carries the direction the returned positions satisfy) yields the same
`virtual_size` and positions, whatever values the caller passes in the
output parameters. -/
theorem c4_rerun_idempotent (vmin vmax : Pair) (sizes : List Pair) (M : List (List Dir))
    (S1 S2 : SeqPair → Option (Nat → Int)) (vss0 vss vss0' : Pair)
    (pos0 pos pos0' : List Pair) (t : SeqPair)
    (hpre : Preconds vmin vmax sizes M)
    (hS1 : SolverOK sizes.length vmin vmax sizes M S1)
    (hrun : compute_screen_layout vmin vmax sizes M S1 vss0 pos0 =
      (true, vss, pos, Option.some t))
    (hS2 : SolverOK sizes.length vmin vmax sizes (inducedMatrix sizes.length t) S2) :
    (compute_screen_layout vmin vmax sizes (inducedMatrix sizes.length t) S2 vss0' pos0').1 =
      true ∧
    (compute_screen_layout vmin vmax sizes (inducedMatrix sizes.length t) S2 vss0' pos0').2.1 =
      vss ∧
    (compute_screen_layout vmin vmax sizes
      (inducedMatrix sizes.length t) S2 vss0' pos0').2.2.1 = pos := by
  unfold compute_screen_layout at hrun
  have hgood := goodState_final sizes.length vmin vmax sizes M S1 hS1 vss0 pos0
  have hle := lastObj_le_init_final sizes.length M S1 vss0 pos0
  simp only [Prod.mk.injEq] at hrun
  obtain ⟨h1, h2, h3, h4⟩ := hrun
  rw [bne_iff_ne] at h1
  obtain ⟨sp, p, hmem, hcomp, hlex, hobj, hvss, hpos, hw⟩ := hgood h1
  rw [hw] at h4
  have ht : sp = t := Option.some.inj h4
  subst ht
  have hoi : p v_objective < init := by
    rw [hobj] at h1 hle
    omega
  have hsame : ∀ sp' ∈ driverTemplates sizes.length,
      compatibleB sizes.length (inducedMatrix sizes.length sp) sp' = true →
      ∃ q, S2 sp' = Option.some q ∧ q v_objective = p v_objective ∧
        solutionVSize q = solutionVSize p ∧
        solutionPositions sizes.length q = solutionPositions sizes.length p := by
    intro sp' hmem' hcomp'
    have hordEq := compatibleB_induced_iff.mp hcomp'
    have hPQ : ∀ x, Feasible sizes.length vmin vmax sizes sp' x ↔
        Feasible sizes.length vmin vmax sizes sp x :=
      fun x => ⟨feasible_template_mono hordEq x,
        feasible_template_mono (fun sa hsa sb hsb => (hordEq sa hsa sb hsb).symm) x⟩
    have hspec := hS2 sp' hmem' hcomp'
    cases hq : S2 sp' with
    | none =>
        rw [hq] at hspec
        exact absurd ((hPQ p).mpr hlex.1) (hspec p)
    | some q =>
        rw [hq] at hspec
        have hq' : IsLexmin (v_nb sizes.length) (Feasible sizes.length vmin vmax sizes sp) q :=
          isLexmin_congr hPQ hspec
        obtain ⟨e0, ev, ep⟩ := lexmin_extract_eq hlex hq'
        exact ⟨q, rfl, e0, ev, ep⟩
  have hex : ∃ sp' ∈ driverTemplates sizes.length,
      compatibleB sizes.length (inducedMatrix sizes.length sp) sp' = true :=
    ⟨sp, hmem, compatibleB_induced_iff.mpr (fun _ _ _ _ => rfl)⟩
  obtain ⟨f1, f2, f3⟩ := fold_const_reach hoi hsame (driverTemplates sizes.length)
    (fun a ha => ha) ⟨init, vss0', pos0', Option.none⟩ rfl hex
  unfold compute_screen_layout
  refine ⟨?_, ?_, ?_⟩
  · show (_ != init) = true
    rw [f1, bne_iff_ne]
    intro hc
    rw [hc] at hoi
    exact lt_irrefl init hoi
  · show (List.foldl (driverStep sizes.length (inducedMatrix sizes.length sp) S2)
        ⟨init, vss0', pos0', Option.none⟩ (driverTemplates sizes.length)).vscreen_size = vss
    rw [f2, ← hvss]
    exact h2
  · show (List.foldl (driverStep sizes.length (inducedMatrix sizes.length sp) S2)
        ⟨init, vss0', pos0', Option.none⟩ (driverTemplates sizes.length)).screen_positions = pos
    rw [f3, ← hpos]
    exact h3

/-- Witness for C4 on the single-screen instance: re-running with the
induced matrix of the winning template reproduces the output. -/
theorem c4_rerun_idempotent_witness :
    (compute_screen_layout ⟨0, 0⟩ ⟨5, 5⟩ [⟨2, 3⟩] (inducedMatrix 1 (initSP 1)) SOne
      ⟨1, 2⟩ []).1 = true ∧
    (compute_screen_layout ⟨0, 0⟩ ⟨5, 5⟩ [⟨2, 3⟩] (inducedMatrix 1 (initSP 1)) SOne
      ⟨1, 2⟩ []).2.1 = ⟨2, 3⟩ ∧
    (compute_screen_layout ⟨0, 0⟩ ⟨5, 5⟩ [⟨2, 3⟩] (inducedMatrix 1 (initSP 1)) SOne
      ⟨1, 2⟩ []).2.2.1 = [⟨0, 0⟩] :=
  c4_rerun_idempotent ⟨0, 0⟩ ⟨5, 5⟩ [⟨2, 3⟩] [[Dir.none]] SOne SOne ⟨9, 9⟩ ⟨2, 3⟩ ⟨1, 2⟩
    [] [⟨0, 0⟩] [] (initSP 1) (by decide) SOne_ok (by decide)
    (by
      show SolverOK 1 ⟨0, 0⟩ ⟨5, 5⟩ [⟨2, 3⟩] (inducedMatrix 1 (initSP 1)) SOne
      rw [show inducedMatrix 1 (initSP 1) = [[Dir.none]] from by decide]
      exact SOne_ok)

/-!
### Enumeration order of the sequence-pair state machine
-/

theorem lexLt_irrefl : ∀ l : List Nat, lexLt l l = false
  | [] => rfl
  | x :: xs => by
      unfold lexLt
      rw [lexLt_irrefl xs]
      simp

theorem lexLt_trans : ∀ (a b c : List Nat),
    lexLt a b = true → lexLt b c = true → lexLt a c = true
  | [], [], _, h1, _ => by simp [lexLt] at h1
  | [], _ :: _, [], _, h2 => by simp [lexLt] at h2
  | [], _ :: _, _ :: _, _, _ => by simp [lexLt]
  | _ :: _, [], _, h1, _ => by simp [lexLt] at h1
  | _ :: _, _ :: _, [], _, h2 => by simp [lexLt] at h2
  | x :: xs, y :: ys, z :: zs, h1, h2 => by
      simp only [lexLt, Bool.or_eq_true, Bool.and_eq_true, decide_eq_true_eq,
        beq_iff_eq] at h1 h2 ⊢
      rcases h1 with h1 | ⟨he1, h1⟩ <;> rcases h2 with h2 | ⟨he2, h2⟩
      · left; omega
      · left; omega
      · left; omega
      · right; exact ⟨by omega, lexLt_trans xs ys zs h1 h2⟩

theorem lexLt_connex : ∀ (a b : List Nat), a ≠ b → lexLt a b = true ∨ lexLt b a = true
  | [], [], h => absurd rfl h
  | [], _ :: _, _ => Or.inl (by simp [lexLt])
  | _ :: _, [], _ => Or.inr (by simp [lexLt])
  | x :: xs, y :: ys, h => by
      simp only [lexLt, Bool.or_eq_true, Bool.and_eq_true, decide_eq_true_eq, beq_iff_eq]
      by_cases hxy : x = y
      · subst hxy
        have hne : xs ≠ ys := fun he => h (by rw [he])
        rcases lexLt_connex xs ys hne with h1 | h1
        · exact Or.inl (Or.inr ⟨rfl, h1⟩)
        · exact Or.inr (Or.inr ⟨rfl, h1⟩)
      · rcases Nat.lt_or_ge x y with h1 | h1
        · exact Or.inl (Or.inl h1)
        · exact Or.inr (Or.inl (by omega))

theorem lexLt_asymm {a b : List Nat} (h : lexLt a b = true) : lexLt b a = false := by
  by_contra hc
  rw [Bool.not_eq_false] at hc
  have := lexLt_trans a b a h hc
  rw [lexLt_irrefl] at this
  cases this

theorem lexLe_iff {a b : List Nat} : lexLe a b = true ↔ lexLt b a = false := by
  unfold lexLe
  cases lexLt b a <;> simp

instance : IsTrans (List Nat) lexLeRel :=
  ⟨by
    intro a b c hab hbc
    unfold lexLeRel at *
    rw [lexLe_iff] at hab hbc ⊢
    by_contra hc
    rw [Bool.not_eq_false] at hc
    by_cases hba : a = b
    · rw [hba] at hc
      rw [hc] at hbc
      cases hbc
    · rcases lexLt_connex a b hba with h1 | h1
      · have := lexLt_trans c a b hc h1
        rw [this] at hbc
        cases hbc
      · rw [h1] at hab
        cases hab⟩

instance : IsTotal (List Nat) lexLeRel :=
  ⟨by
    intro a b
    unfold lexLeRel
    rw [lexLe_iff, lexLe_iff]
    cases hab : lexLt b a with
    | false => exact Or.inl rfl
    | true => exact Or.inr (lexLt_asymm hab)⟩

instance : IsAntisymm (List Nat) lexLeRel :=
  ⟨by
    intro a b hab hba
    unfold lexLeRel at *
    rw [lexLe_iff] at hab hba
    by_contra hne
    rcases lexLt_connex a b hne with h1 | h1
    · rw [h1] at hba
      cases hba
    · rw [h1] at hab
      cases hab⟩

/-- All permutations of `0..n-1` in the lexicographic order in which
`std::next_permutation` visits them. -/
def sortedPerms (n : Nat) : List (List Nat) :=
  (List.range n).permutations'.insertionSort lexLeRel

theorem sortedPerms_sorted (n : Nat) : List.Sorted lexLeRel (sortedPerms n) :=
  List.sorted_insertionSort lexLeRel _

theorem sortedPerms_perm (n : Nat) : (sortedPerms n).Perm (List.range n).permutations' :=
  List.perm_insertionSort lexLeRel _

theorem mem_sortedPerms {n : Nat} {x : List Nat} :
    x ∈ sortedPerms n ↔ x.Perm (List.range n) := by
  rw [(sortedPerms_perm n).mem_iff, List.mem_permutations']

theorem sortedPerms_nodup (n : Nat) : (sortedPerms n).Nodup := by
  have h1 : (List.range n).permutations.Nodup :=
    List.nodup_permutations _ (List.nodup_range n)
  have h2 : (List.range n).permutations'.Nodup :=
    (List.permutations_perm_permutations' (List.range n)).nodup_iff.mp h1
  exact (sortedPerms_perm n).nodup_iff.mpr h2

theorem sortedPerms_length (n : Nat) : (sortedPerms n).length = n.factorial := by
  rw [(sortedPerms_perm n).length_eq,
    ← (List.permutations_perm_permutations' (List.range n)).length_eq,
    List.length_permutations, List.length_range]

theorem sortedPerms_strict (n : Nat) :
    List.Pairwise (fun p q => lexLt p q = true) (sortedPerms n) := by
  have hle : List.Pairwise lexLeRel (sortedPerms n) := sortedPerms_sorted n
  have hne : List.Pairwise (fun p q : List Nat => p ≠ q) (sortedPerms n) := sortedPerms_nodup n
  refine (hle.and hne).imp ?_
  rintro a b ⟨h1, h2⟩
  unfold lexLeRel at h1
  rw [lexLe_iff] at h1
  rcases lexLt_connex a b h2 with h | h
  · exact h
  · rw [h] at h1
    cases h1

/-- The sorted permutation list of any permutation of `0..n-1` is the
canonical one: sorting is determined by the underlying multiset. -/
theorem sortPerm_eq {n : Nat} {l : List Nat} (h : l.Perm (List.range n)) :
    l.permutations'.insertionSort lexLeRel = sortedPerms n := by
  refine List.eq_of_perm_of_sorted ?_ (List.sorted_insertionSort lexLeRel _)
    (sortedPerms_sorted n)
  exact (List.perm_insertionSort lexLeRel _).trans
    ((h.permutations').trans (sortedPerms_perm n).symm)

/-- A sorted list is the lexicographically least among its permutations. -/
theorem sorted_is_lexmin : ∀ (p l : List Nat), p.Perm l → List.Sorted (· ≤ ·) l →
    lexLt p l = false
  | [], [], _, _ => rfl
  | [], x :: l, hp, _ => by
      have := hp.length_eq
      simp at this
  | y :: p', [], hp, _ => by
      have := hp.length_eq
      simp at this
  | y :: p', x :: l', hp, hs => by
      by_cases hxy : y = x
      · subst hxy
        have hp' : p'.Perm l' := hp.cons_inv
        have hrec := sorted_is_lexmin p' l' hp' hs.of_cons
        simp [lexLt, hrec]
      · have hy : y ∈ x :: l' := hp.subset (List.mem_cons_self y p')
        have hxle : x ≤ y := by
          rcases List.mem_cons.mp hy with h | h
          · exact absurd h hxy
          · exact List.rel_of_sorted_cons hs y h
        simp only [lexLt, Bool.or_eq_false_iff, decide_eq_false_iff_not,
          Bool.and_eq_false_iff]
        constructor
        · omega
        · left
          exact beq_eq_false_iff_ne.mpr hxy

/-- In a strictly sorted list, the elements above `x` are exactly the part
after `x`. -/
theorem filter_sorted_suffix {x : List Nat} {u v A : List (List Nat)}
    (hA : List.Pairwise (fun p q => lexLt p q = true) A) (he : A = u ++ x :: v) :
    A.filter (fun y => lexLt x y) = v := by
  subst he
  rw [List.filter_append]
  obtain ⟨hu, hxv, hcross⟩ := List.pairwise_append.mp hA
  have hx := List.pairwise_cons.mp hxv
  rw [List.filter_eq_nil_iff.mpr ?h1]
  · rw [List.filter_cons_of_neg (by rw [lexLt_irrefl]; exact Bool.false_ne_true)]
    rw [List.nil_append, List.filter_eq_self.mpr ?h2]
    case h2 =>
      intro e hel
      exact hx.1 e hel
  case h1 =>
    intro e hel hc
    have := hcross e hel x (List.mem_cons_self x v)
    rw [lexLt_asymm this] at hc
    cases hc

/-- `std::next_permutation` advances an element of the sorted permutation
list to its successor. -/
theorem next_permutation_succ {n : Nat} {u v : List (List Nat)} {x y : List Nat}
    (he : sortedPerms n = u ++ x :: y :: v) :
    next_permutation x = (true, y) := by
  have hx : x ∈ sortedPerms n := by
    rw [he]
    exact List.mem_append_right u (List.mem_cons_self x (y :: v))
  have hperm : x.Perm (List.range n) := mem_sortedPerms.mp hx
  unfold next_permutation
  rw [show x.permutations'.insertionSort lexLeRel = sortedPerms n from sortPerm_eq hperm]
  rw [filter_sorted_suffix (sortedPerms_strict n) he]

/-- `std::next_permutation` on the last (descending) permutation reports
`false` and resets to the sorted identity permutation. -/
theorem next_permutation_last {n : Nat} {u : List (List Nat)} {x : List Nat}
    (he : sortedPerms n = u ++ [x]) :
    next_permutation x = (false, List.range n) := by
  have hx : x ∈ sortedPerms n := by
    rw [he]
    exact List.mem_append_right u (List.mem_cons_self x [])
  have hperm : x.Perm (List.range n) := mem_sortedPerms.mp hx
  unfold next_permutation
  rw [show x.permutations'.insertionSort lexLeRel = sortedPerms n from sortPerm_eq hperm]
  rw [filter_sorted_suffix (sortedPerms_strict n) he]
  have hsort : x.insertionSort (fun a b => a ≤ b) = List.range n := by
    refine List.eq_of_perm_of_sorted ((List.perm_insertionSort _ x).trans hperm)
      (List.sorted_insertionSort _ x) ?_
    exact (List.pairwise_le_range n)
  rw [hsort]

/-- The sorted permutation list starts with the identity permutation. -/
theorem sortedPerms_head (n : Nat) : ∃ tail, sortedPerms n = List.range n :: tail := by
  have hmem : List.range n ∈ sortedPerms n := mem_sortedPerms.mpr (List.Perm.refl _)
  cases hA : sortedPerms n with
  | nil =>
      rw [hA] at hmem
      cases hmem
  | cons h t =>
      refine ⟨t, ?_⟩
      rw [hA] at hmem
      rcases List.mem_cons.mp hmem with h1 | h1
      · rw [h1]
      · exfalso
        have hstrict := sortedPerms_strict n
        rw [hA] at hstrict
        have hlt := (List.pairwise_cons.mp hstrict).1 _ h1
        have hh : h ∈ sortedPerms n := by
          rw [hA]
          exact List.mem_cons_self h t
        have hperm : h.Perm (List.range n) := mem_sortedPerms.mp hh
        have hmin := sorted_is_lexmin h (List.range n) hperm (List.pairwise_le_range n)
        rw [hmin] at hlt
        cases hlt

/-- The do-while walk of `sequence_pair::next`: starting anywhere in the
row-major (b outer, a inner) grid of permutation pairs, with enough fuel the
unrolled loop visits exactly the rest of the grid. -/
theorem templateList_walk (n : Nat) : ∀ (bs' : List (List Nat)) (bb : List Nat),
    (bb :: bs') <:+ sortedPerms n →
    ∀ (s' : List (List Nat)) (aa : List Nat), (aa :: s') <:+ sortedPerms n →
    ∀ fuel : Nat, s'.length + bs'.length * (sortedPerms n).length ≤ fuel →
    templateList fuel ⟨aa, bb⟩ =
      ((aa :: s').map (fun x => SeqPair.mk x bb)) ++
        (bs'.flatMap (fun b2 => (sortedPerms n).map (fun x => SeqPair.mk x b2))) := by
  intro bs'
  induction bs' with
  | nil =>
      intro bb hbs s'
      induction s' with
      | nil =>
          intro aa hs fuel _
          obtain ⟨u, hu⟩ := hs
          have hnpa := next_permutation_last (n := n) hu.symm
          obtain ⟨ub, hub⟩ := hbs
          have hnpb := next_permutation_last (n := n) hub.symm
          have hnext : SeqPair.next ⟨aa, bb⟩ = (false, ⟨List.range n, List.range n⟩) := by
            simp [SeqPair.next, hnpa, hnpb]
          cases fuel with
          | zero => simp [templateList]
          | succ m => simp [templateList, hnext]
      | cons a2 s'' IH =>
          intro aa hs fuel hfuel
          obtain ⟨u, hu⟩ := hs
          have hnpa := next_permutation_succ (n := n) hu.symm
          have hnext : SeqPair.next ⟨aa, bb⟩ = (true, ⟨a2, bb⟩) := by
            simp [SeqPair.next, hnpa]
          have hs' : (a2 :: s'') <:+ sortedPerms n := by
            refine List.IsSuffix.trans (List.suffix_cons aa (a2 :: s'')) ?_
            exact ⟨u, hu⟩
          cases fuel with
          | zero =>
              exfalso
              simp at hfuel
          | succ m =>
              have hstep : templateList (m + 1) ⟨aa, bb⟩ =
                  ⟨aa, bb⟩ :: templateList m ⟨a2, bb⟩ := by
                simp [templateList, hnext]
              rw [hstep, IH a2 hs' m (by simp at hfuel ⊢; omega)]
              simp
  | cons b2 bs'' IHout =>
      intro bb hbs s'
      induction s' with
      | nil =>
          intro aa hs fuel hfuel
          obtain ⟨u, hu⟩ := hs
          have hnpa := next_permutation_last (n := n) hu.symm
          obtain ⟨ub, hub⟩ := hbs
          have hnpb := next_permutation_succ (n := n) hub.symm
          have hnext : SeqPair.next ⟨aa, bb⟩ = (true, ⟨List.range n, b2⟩) := by
            simp [SeqPair.next, hnpa, hnpb]
          have hk1 : 1 ≤ (sortedPerms n).length := by
            rw [sortedPerms_length]
            exact Nat.factorial_pos n
          have hdist : (bs''.length + 1) * (sortedPerms n).length =
              bs''.length * (sortedPerms n).length + (sortedPerms n).length := by
            ring
          simp only [List.length_cons, List.length_nil] at hfuel
          cases fuel with
          | zero =>
              exfalso
              rw [hdist] at hfuel
              generalize bs''.length * (sortedPerms n).length = P at hfuel
              omega
          | succ m =>
              have hstep : templateList (m + 1) ⟨aa, bb⟩ =
                  ⟨aa, bb⟩ :: templateList m ⟨List.range n, b2⟩ := by
                simp [templateList, hnext]
              obtain ⟨Atail, hA⟩ := sortedPerms_head n
              have hbs' : (b2 :: bs'') <:+ sortedPerms n := by
                refine List.IsSuffix.trans (List.suffix_cons bb (b2 :: bs'')) ?_
                exact ⟨ub, hub⟩
              have hsA : (List.range n :: Atail) <:+ sortedPerms n := by
                rw [hA]
              have hlenA : Atail.length + 1 = (sortedPerms n).length := by
                conv_rhs => rw [hA]
                simp
              have hfuel2 : Atail.length + bs''.length * (sortedPerms n).length ≤ m := by
                rw [hdist] at hfuel
                generalize bs''.length * (sortedPerms n).length = P at hfuel
                omega
              rw [hstep, IHout b2 hbs' Atail (List.range n) hsA m hfuel2]
              rw [hA]
              simp [List.flatMap_cons]
      | cons a2 s'' IH =>
          intro aa hs fuel hfuel
          obtain ⟨u, hu⟩ := hs
          have hnpa := next_permutation_succ (n := n) hu.symm
          have hnext : SeqPair.next ⟨aa, bb⟩ = (true, ⟨a2, bb⟩) := by
            simp [SeqPair.next, hnpa]
          have hs' : (a2 :: s'') <:+ sortedPerms n := by
            refine List.IsSuffix.trans (List.suffix_cons aa (a2 :: s'')) ?_
            exact ⟨u, hu⟩
          simp only [List.length_cons] at hfuel
          cases fuel with
          | zero =>
              exfalso
              generalize (bs''.length + 1) * (sortedPerms n).length = P at hfuel
              omega
          | succ m =>
              have hstep : templateList (m + 1) ⟨aa, bb⟩ =
                  ⟨aa, bb⟩ :: templateList m ⟨a2, bb⟩ := by
                simp [templateList, hnext]
              have hfuel2 : s''.length +
                  (b2 :: bs'').length * (sortedPerms n).length ≤ m := by
                simp only [List.length_cons]
                generalize (bs''.length + 1) * (sortedPerms n).length = P at hfuel ⊢
                omega
              rw [hstep, IH a2 hs' m hfuel2]
              simp

/-- The driver's template list is exactly the row-major grid of all
permutation pairs, `b` outermost, both in lexicographic order. -/
theorem driverTemplates_eq (n : Nat) :
    driverTemplates n = (sortedPerms n).flatMap
      (fun bb => (sortedPerms n).map (fun aa => SeqPair.mk aa bb)) := by
  obtain ⟨Atail, hA⟩ := sortedPerms_head n
  have hlen : (sortedPerms n).length = n.factorial := sortedPerms_length n
  have hlenA : Atail.length + 1 = (sortedPerms n).length := by
    conv_rhs => rw [hA]
    simp
  have hsA : (List.range n :: Atail) <:+ sortedPerms n := by
    rw [hA]
  have hfuel : Atail.length + Atail.length * (sortedPerms n).length ≤
      n.factorial * n.factorial := by
    have hF : 1 ≤ n.factorial := Nat.factorial_pos n
    have h1 : Atail.length = n.factorial - 1 := by omega
    rw [h1, hlen, Nat.sub_mul, one_mul]
    have h2 : n.factorial ≤ n.factorial * n.factorial :=
      Nat.le_mul_of_pos_left _ (Nat.factorial_pos n)
    omega
  have hwalk := templateList_walk n Atail (List.range n) hsA Atail (List.range n) hsA
    (n.factorial * n.factorial) hfuel
  show templateList (n.factorial * n.factorial) ⟨List.range n, List.range n⟩ = _
  rw [hwalk]
  conv_rhs => rw [hA]
  rw [List.flatMap_cons, ← hA]

/-- C7: starting from both permutations at identity, the driver's do-while
loop built on `sequence_pair::next` visits the `(a, b)` pairs in
lexicographic order with `a` advancing fastest, terminates, and examines
every one of the `(n!)^2` sequence pairs exactly once. -/
theorem c7_enumeration (n : Nat) :
    driverTemplates n = (sortedPerms n).flatMap
      (fun bb => (sortedPerms n).map (fun aa => SeqPair.mk aa bb)) ∧
    (driverTemplates n).length = n.factorial * n.factorial ∧
    (driverTemplates n).Nodup ∧
    (∀ sp : SeqPair, IsSeqPairOf n sp → sp ∈ driverTemplates n) ∧
    List.Pairwise (fun x y : SeqPair =>
      lexLt x.b y.b = true ∨ (x.b = y.b ∧ lexLt x.a y.a = true)) (driverTemplates n) := by
  have heq := driverTemplates_eq n
  have hlen := sortedPerms_length n
  have hnd := sortedPerms_nodup n
  have hstrict := sortedPerms_strict n
  refine ⟨heq, ?_, ?_, ?_, ?_⟩
  · rw [heq, List.length_flatMap]
    have h1 : (sortedPerms n).map (List.length ∘
        fun bb => (sortedPerms n).map (fun aa => SeqPair.mk aa bb)) =
        (sortedPerms n).map (fun _ => n.factorial) := by
      refine List.map_congr_left ?_
      intro bb _
      simp [hlen]
    rw [h1]
    have h2 : ∀ (l : List (List Nat)) (c : Nat), (l.map (fun _ => c)).sum = l.length * c := by
      intro l c
      induction l with
      | nil => simp
      | cons a l IH => simp [IH, Nat.succ_mul]; omega
    rw [h2, hlen]
  · rw [heq, List.nodup_flatMap]
    constructor
    · intro bb _
      refine List.Nodup.map ?_ hnd
      intro a1 a2 h
      exact congrArg SeqPair.a h
    · refine List.Pairwise.imp ?_ hnd
      intro b1 b2 hne sp h1 h2
      rw [List.mem_map] at h1 h2
      obtain ⟨a1, _, rfl⟩ := h1
      obtain ⟨a2, _, he⟩ := h2
      exact hne (congrArg SeqPair.b he.symm)
  · intro sp hsp
    rw [heq, List.mem_flatMap]
    exact ⟨sp.b, mem_sortedPerms.mpr hsp.2,
      List.mem_map.mpr ⟨sp.a, mem_sortedPerms.mpr hsp.1, rfl⟩⟩
  · rw [heq, List.pairwise_flatMap]
    constructor
    · intro bb _
      rw [List.pairwise_map]
      refine List.Pairwise.imp ?_ hstrict
      intro a1 a2 h
      exact Or.inr ⟨rfl, h⟩
    · refine List.Pairwise.imp ?_ hstrict
      intro b1 b2 h x hx y hy
      rw [List.mem_map] at hx hy
      obtain ⟨a1, _, rfl⟩ := hx
      obtain ⟨a2, _, rfl⟩ := hy
      exact Or.inl h

theorem c7_enumeration_witness :
    IsSeqPairOf 2 ⟨[1, 0], [0, 1]⟩ ∧ ⟨[1, 0], [0, 1]⟩ ∈ driverTemplates 2 :=
  ⟨⟨by decide, by decide⟩,
    (c7_enumeration 2).2.2.2.1 ⟨[1, 0], [0, 1]⟩ ⟨by decide, by decide⟩⟩

end ScreenLayout
